import Mathlib

/-!
Verification of the Cartograph source-transplantation scripts.

The repository consists of three Python scripts operating on line-oriented
text documents:

* `clean_ui.py` : locates named function blocks in `src/UI.cpp` by a
  signature-substring search followed by a brace-balance scan, collects the
  resulting line spans, sorts them in descending order of start line and
  deletes each span with `del output_lines[start:end]`, then writes the file.
* `extract_canvas.py` : extracts fixed line slices from `src/UI.cpp` and
  adapts each extracted line by literal substring replacements; lines
  containing the marker `ShowToast(` are replaced by an annotated TODO line.
* `update_refs.py` : rewrites references to relocated state in `src/UI.cpp`:
  first a literal replacement of `Tool::` by `CanvasPanel::Tool::`, then for
  each moved variable a regex substitution
  `(?<!m_canvasPanel\.)(?<!\.)\b var \b  ->  m_canvasPanel.var`.

Documents are modelled as `List Char` (for whole-file text) or
`List (List Char)` (for line lists).  Python's `\w` is modelled over the
ASCII range (`[A-Za-z0-9_]`), which is faithful for the C++ sources the
scripts operate on.
-/

namespace Cartograph

/-! ### Basic character and substring operations -/

/-- The regex word-character class `\w` (ASCII range), as used by the
word-boundary assertions `\b` in `update_refs.py`. -/
def wordChar (c : Char) : Bool := c.isAlphanum || c == '_'

/-- True when the list of already-consumed characters (stored in reverse,
most recent first) does not start with a word character.  Since every moved
variable starts with a word character, this is exactly the `\b` assertion in
front of the variable; for the empty list it models the start of the text. -/
def headNotWord : List Char → Bool
  | [] => true
  | c :: _ => !wordChar c

/-- True when the most recently consumed character is not a dot: the
`(?<!\.)` lookbehind of `update_refs.py`. -/
def headNotDot : List Char → Bool
  | [] => true
  | c :: _ => !(c == '.')

/-- Substring containment, as Python's `in` operator on strings
(`if 'bool UI::DetectEdgeHover(' in line`). -/
def containsSub (pat : List Char) : List Char → Bool
  | [] => pat.isEmpty
  | c :: cs => pat.isPrefixOf (c :: cs) || containsSub pat cs

/-- Core loop of Python's `str.replace`: scans left to right, replacing each
leftmost non-overlapping occurrence of `pat` by `repl`.  `skip` counts input
characters still to be consumed silently after an accepted match (the match
itself was already emitted as `repl`).  The `pat ≠ []` guard only makes the
model total; every call in the scripts has a non-empty pattern. -/
def pyReplaceCore (pat repl : List Char) : Nat → List Char → List Char
  | _, [] => []
  | skip+1, _ :: cs => pyReplaceCore pat repl skip cs
  | 0, c :: cs =>
    if pat <+: (c :: cs) ∧ pat ≠ []
    then repl ++ pyReplaceCore pat repl (pat.length - 1) cs
    else c :: pyReplaceCore pat repl 0 cs

/-- Python's `str.replace(pat, repl)`. -/
def pyReplace (pat repl s : List Char) : List Char := pyReplaceCore pat repl 0 s

/-- Python's `str.lstrip()` (whitespace stripping from the left), used on
deferred `ShowToast(` lines in `extract_canvas.py`. -/
def pyLstrip (l : List Char) : List Char := l.dropWhile (fun c => c.isWhitespace)

/-! ### Document editing primitives -/

/-- Python's `del l[s:e]` on a list: removes the elements with indices in
`[s, e)`.  `max s e` reproduces Python's behaviour that a slice with
`e ≤ s` is empty, so nothing is deleted. -/
def pyDelSlice (l : List α) (s e : Nat) : List α := l.take s ++ l.drop (max s e)

/-- Python's slice `l[s:e]` (with non-negative bounds). -/
def pySlice (s e : Nat) (l : List α) : List α := (l.take e).drop s

/-- The lines of one span, extracted from a document: `ui_lines[start:end]`
in `extract_canvas.py`. -/
def extractSpan (doc : List α) (p : Nat × Nat) : List α := pySlice p.1 p.2 doc

/-- Insertion of a block of lines at position `n` (used to state that
excision is inverted by re-inserting the extracted lines). -/
def insertAt (n : Nat) (xs l : List α) : List α := l.take n ++ xs ++ l.drop n

/-- The removal loop of `clean_ui.py` (lines 85-87): successively
`del output_lines[start:end]` for each span, in the list's order. -/
def exciseAll (spans : List (Nat × Nat)) (doc : List α) : List α :=
  spans.foldl (fun acc p => pyDelSlice acc p.1 p.2) doc

/-- Re-insertion of the extracted spans at their excision points, in the
order of the given list. -/
def reinsertAll (doc : List α) (spans : List (Nat × Nat)) (d : List α) : List α :=
  spans.foldl (fun acc p => insertAt p.1 (extractSpan doc p) acc) d

/-- One insertion step of a stable descending lexicographic sort. -/
def insertSpanDesc (p : Nat × Nat) : List (Nat × Nat) → List (Nat × Nat)
  | [] => [p]
  | q :: rest =>
    if q.1 < p.1 ∨ (q.1 = p.1 ∧ q.2 ≤ p.2) then p :: q :: rest
    else q :: insertSpanDesc p rest

/-- `remove_sections.sort(reverse=True)` of `clean_ui.py` (line 81): a stable
sort of the span list into descending lexicographic order. -/
def sortSpansDesc : List (Nat × Nat) → List (Nat × Nat)
  | [] => []
  | p :: rest => insertSpanDesc p (sortSpansDesc rest)

/-- True when index `i` lies inside one of the spans. -/
def coveredB (i : Nat) (spans : List (Nat × Nat)) : Bool :=
  spans.any (fun p => decide (p.1 ≤ i) && decide (i < p.2))

/-- The lines of a document (starting at index `i`) whose indices are not
covered by any span, in document order.  This is the specification-side
description of excision: uncovered lines survive unaltered, in order. -/
def keepLinesFrom (spans : List (Nat × Nat)) : Nat → List α → List α
  | _, [] => []
  | i, x :: xs =>
    if coveredB i spans then keepLinesFrom spans (i+1) xs
    else x :: keepLinesFrom spans (i+1) xs

/-- Well-formedness of a span list for sequential removal: each span has
`start ≤ end ≤ L`, and every later span in the list ends at or before the
start of the current one (so the list is in descending start order and the
spans are pairwise non-overlapping). -/
def spansOkDesc : List (Nat × Nat) → Nat → Bool
  | [], _ => true
  | p :: rest, bound =>
    decide (p.1 ≤ p.2) && decide (p.2 ≤ bound) &&
    rest.all (fun q => decide (q.2 ≤ p.1)) && spansOkDesc rest bound

/-- Sum of the span sizes. -/
def spanSizeSum (spans : List (Nat × Nat)) : Nat :=
  (spans.map (fun p => p.2 - p.1)).sum

/-- Overlap of two spans, in the words of the spec (§4.2): `a.start < b.end
and b.start < a.end`. -/
def overlapSpec (a b : Nat × Nat) : Bool :=
  decide (a.1 < b.2) && decide (b.1 < a.2)

/-- Pairwise non-overlap of a span list (spec-side). -/
def noOverlaps : List (Nat × Nat) → Bool
  | [] => true
  | p :: rest => rest.all (fun q => !overlapSpec p q) && noOverlaps rest

/-- The SpanSet `build` contract, following the spec's words (§4.2): validate
pairwise non-overlap, fail if any pair overlaps, otherwise produce the
canonical descending-by-start ordering.  This definition follows the spec,
not the code; it exists only to be compared against the code's behaviour
(the code performs no such validation). -/
def specBuild (spans : List (Nat × Nat)) : Option (List (Nat × Nat)) :=
  if noOverlaps spans then some (sortSpansDesc spans) else none

/-! ### `clean_ui.py`: signature search and brace-balance scan -/

/-- Net brace balance contribution of one line:
`lines[j].count('{') - lines[j].count('}')`.  (The code only adds the
opening-brace count inside `if '{' in lines[j]`, but the count is zero
when no `{` is present, so adding it unconditionally is the same.) -/
def braceDelta (l : List Char) : Int :=
  (l.count '{' : Int) - (l.count '}' : Int)

/-- The inner scan loop of `clean_ui.py` (lines 17-25): starting at line
index `j` with running balance `bal` and flag `opened`, consume at most
`fuel` lines; on each line, set `opened` if the line contains `{`, add the
line's brace delta, and stop with `j + 1` as the exclusive end when `opened`
holds and the balance is exactly `0`. -/
def scanLoop (lines : List (List Char)) : Nat → Nat → Int → Bool → Option Nat
  | 0, _, _, _ => none
  | fuel+1, j, bal, opened =>
    match lines[j]? with
    | none => none
    | some l =>
      if (opened || l.contains '{') = true ∧ bal + braceDelta l = 0
      then some (j + 1)
      else scanLoop lines fuel (j + 1) (bal + braceDelta l) (opened || l.contains '{')

/-- The scan `for j in range(i, min(i + window, len(lines)))` with initial
state `brace_count = 0`, `found_open = False`. -/
def scanEnd (lines : List (List Char)) (i window : Nat) : Option Nat :=
  scanLoop lines (min (i + window) lines.length - i) i 0 false

/-- The signature search `for i, line in enumerate(lines): if sig in line:`
with an unconditional `break` after the first matching line: index of the
first line containing `sig`. -/
def findSigIdx (sig : List Char) : List (List Char) → Option Nat
  | [] => none
  | l :: ls =>
    if containsSub sig l then some 0
    else (findSigIdx sig ls).map (fun n => n + 1)

/-- One target's span: the first line containing the signature, paired with
the exclusive end line found by the brace-balance scan.  If the signature is
not found, or the scan window is exhausted, no span is produced. -/
def findBlock (sig : List Char) (window : Nat) (lines : List (List Char)) :
    Option (Nat × Nat) :=
  match findSigIdx sig lines with
  | none => none
  | some i =>
    match scanEnd lines i window with
    | none => none
    | some e => some (i, e)

/-- Signature of `DetectEdgeHover` (window 100 lines). -/
def sigDetect : List Char := "bool UI::DetectEdgeHover(".toList

/-- Signature of `RenderCanvasPanel` (window 2000 lines). -/
def sigRender : List Char := "void UI::RenderCanvasPanel(".toList

/-- Signature of `LoadEyedropperCursor` (window 100 lines). -/
def sigEye : List Char := "void UI::LoadEyedropperCursor(".toList

/-- Signature of `UpdateCursor` (window 100 lines). -/
def sigCursor : List Char := "void UI::UpdateCursor(".toList

/-- The four extraction targets of `clean_ui.py` with their scan windows. -/
def targetsAll : List (List Char × Nat) :=
  [(sigDetect, 100), (sigRender, 2000), (sigEye, 100), (sigCursor, 100)]

/-- The spans appended to `remove_sections`, in the order the four search
loops run: each target contributes its span when found, and nothing when its
signature is unmatched or its scan window is exhausted. -/
def collectSpans (ts : List (List Char × Nat)) (lines : List (List Char)) :
    List (Nat × Nat) :=
  match ts with
  | [] => []
  | t :: rest =>
    match findBlock t.1 t.2 lines with
    | none => collectSpans rest lines
    | some p => p :: collectSpans rest lines

/-- Specification-side cumulative brace balance: the sum of the brace deltas
of lines `i` to `i + n` inclusive (the running balance after the scan has
consumed line `i + n`). -/
def sumDelta (lines : List (List Char)) (i n : Nat) : Int :=
  (((lines.drop i).take (n+1)).map braceDelta).sum

/-- Specification-side `found_open` flag: true when one of lines `i` to
`i + n` contains an opening brace. -/
def anyOpen (lines : List (List Char)) (i n : Nat) : Bool :=
  ((lines.drop i).take (n+1)).any (fun l => l.contains '{')

/-- The scan's termination condition holds right after consuming line
`i + n`: an opening brace has been observed and the running balance is back
to exactly zero. -/
abbrev acceptAt (lines : List (List Char)) (i n : Nat) : Prop :=
  anyOpen lines i n = true ∧ sumDelta lines i n = 0

/-- The scan state's termination condition when the scan was started at line
`j` with running balance `bal` and flag `op`. -/
abbrev acceptState (lines : List (List Char)) (j n : Nat) (bal : Int)
    (op : Bool) : Prop :=
  (op || anyOpen lines j n) = true ∧ bal + sumDelta lines j n = 0

/-- The whole document transformation of `clean_ui.py`: collect the spans of
the four targets, sort descending, and delete each span.  The result is
written back to `src/UI.cpp` unconditionally. -/
def cleanUi (lines : List (List Char)) : List (List Char) :=
  exciseAll (sortSpansDesc (collectSpans targetsAll lines)) lines

/-! ### `extract_canvas.py`: fixed slices and line adaptation -/

/-- Start of the `GetTilesAlongLine` slice (`helper_start = 61`). -/
def helperStart : Nat := 61

/-- End of the `GetTilesAlongLine` slice (`helper_end = 97`). -/
def helperEnd : Nat := 97

/-- Start of the `RenderCanvasPanel` slice (`render_start = 2034`). -/
def renderStart : Nat := 2034

/-- End of the `RenderCanvasPanel` slice (`render_end = 3783`). -/
def renderEnd : Nat := 3783

/-- The literal replacement rules applied to every line of the extracted
`RenderCanvasPanel` body, in order (lines 75-82 of `extract_canvas.py`). -/
def replacePairs : List (List Char × List Char) :=
  [("void UI::RenderCanvasPanel".toList, "void CanvasPanel::Render".toList),
   ("showPropertiesPanel = !showPropertiesPanel".toList,
    "*showPropertiesPanel = !(*showPropertiesPanel)".toList),
   ("m_layoutInitialized = false".toList, "*layoutInitialized = false".toList)]

/-- The defer marker: `if 'ShowToast(' in adapted_line`. -/
def toastMarker : List Char := "ShowToast(".toList

/-- The annotation placed in front of a deferred line. -/
def todoMark : List Char := "// TODO: Re-enable toast: ".toList

/-- The literal replacement rules applied in sequence to one line. -/
def applyReplaces (l : List Char) : List Char :=
  replacePairs.foldl (fun s pr => pyReplace pr.1 pr.2 s) l

/-- Adaptation of one line of the extracted `RenderCanvasPanel` body: the
literal replacements, then the defer rule, which replaces a line containing
the marker by the annotated, left-stripped line. -/
def adaptRenderLine (l : List Char) : List Char :=
  if containsSub toastMarker (applyReplaces l) = true
  then todoMark ++ pyLstrip (applyReplaces l)
  else applyReplaces l

/-- The adaptation loop over all extracted lines
(`for line in render_lines:`). -/
def renderAdapt (ls : List (List Char)) : List (List Char) :=
  ls.map adaptRenderLine

/-! ### `update_refs.py`: reference qualification -/

/-- The owning qualifier the moved variables are rewritten to
(`m_canvasPanel`). -/
def qualChars : List Char := "m_canvasPanel".toList

/-- The two lookbehind assertions `(?<!qual\.)(?<!\.)` of the substitution
pattern, evaluated against the already-consumed text (in reverse order, most
recent character first). -/
def lookbehindOk (qual pre : List Char) : Bool :=
  !(('.' :: qual.reverse).isPrefixOf pre) && headNotDot pre

/-- The full match condition of the pattern `(?<!qual\.)(?<!\.)\b v \b` at
the current position: `v` starts here, the preceding character (if any) is
not a word character and not a dot and does not close an occurrence of
`qual ++ "."`, and the character following `v` (if any) is not a word
character. -/
def matchesAt (qual v pre s : List Char) : Bool :=
  v.isPrefixOf s && headNotWord pre && lookbehindOk qual pre &&
    headNotWord (s.drop v.length)

/-- Core loop of `re.sub(r'(?<!qual\.)(?<!\.)\b v \b', qual + '.' + v, s)`:
scan the input left to right; at each position (with the consumed input in
`pre`, reversed) either accept a match, emitting `qual ++ "." ++ v` and
consuming the matched characters silently (`skip` counts those still to
consume), or emit the current character unchanged.  Scanning resumes after
the end of an accepted match, as `re.sub` does. -/
def reSubCore (qual v : List Char) : Nat → List Char → List Char → List Char
  | _, _, [] => []
  | skip+1, pre, c :: cs => reSubCore qual v skip (c :: pre) cs
  | 0, pre, c :: cs =>
    if matchesAt qual v pre (c :: cs) = true
    then (qual ++ '.' :: v) ++ reSubCore qual v (v.length - 1) (c :: pre) cs
    else c :: reSubCore qual v 0 (c :: pre) cs

/-- One variable's substitution pass over a document:
`content = re.sub(pattern, 'm_canvasPanel.' + var, content)` generalized
over the qualifier. -/
def reSubVar (qual v doc : List Char) : List Char := reSubCore qual v 0 [] doc

/-- The list of state variables moved to `CanvasPanel`
(`moved_vars` in `update_refs.py`). -/
def movedVars : List (List Char) :=
  ["currentTool".toList, "selectedTileId".toList, "hoveredTileX".toList,
   "hoveredTileY".toList, "isHoveringCanvas".toList, "isSelecting".toList,
   "selectionStartX".toList, "selectionStartY".toList, "selectionEndX".toList,
   "selectionEndY".toList, "isPainting".toList, "lastPaintedTileX".toList,
   "lastPaintedTileY".toList, "currentPaintChanges".toList,
   "twoFingerEraseActive".toList, "isModifyingEdges".toList,
   "currentEdgeChanges".toList, "selectedIconName".toList,
   "markerLabel".toList, "markerColor".toList, "markerColorHex".toList,
   "selectedMarker".toList, "hoveredMarker".toList, "isDraggingMarker".toList,
   "dragStartX".toList, "dragStartY".toList, "copiedMarkers".toList,
   "hoveredEdge".toList, "isHoveringEdge".toList,
   "eyedropperAutoSwitchToPaint".toList, "lastTool".toList,
   "selectedRoomId".toList, "roomPaintMode".toList,
   "showRoomOverlays".toList, "isPaintingRoomCells".toList,
   "lastRoomPaintX".toList, "lastRoomPaintY".toList,
   "currentRoomAssignments".toList, "eraserBrushSize".toList]

/-- Pattern of the scope-qualification replacement
`content.replace('Tool::', 'CanvasPanel::Tool::')`. -/
def toolPat : List Char := "Tool::".toList

/-- Replacement of the scope qualification. -/
def toolRepl : List Char := "CanvasPanel::Tool::".toList

/-- The per-variable substitution loop (`for var in moved_vars:`). -/
def substAllVars (doc : List Char) : List Char :=
  movedVars.foldl (fun c v => reSubVar qualChars v c) doc

/-- The whole document transformation of `update_refs.py`: the literal
`Tool::` replacement, then the per-variable qualified substitutions. -/
def updateRefs (doc : List Char) : List Char :=
  substAllVars (pyReplace toolPat toolRepl doc)

/-! ### Lemmas: slice deletion and span removal -/

theorem pyDelSlice_eq (l : List α) {s e : Nat} (h : s ≤ e) :
    pyDelSlice l s e = l.take s ++ l.drop e := by
  unfold pyDelSlice
  rw [Nat.max_eq_right h]

theorem pyDelSlice_length (l : List α) {s e : Nat} (hse : s ≤ e)
    (he : e ≤ l.length) : (pyDelSlice l s e).length = s + (l.length - e) := by
  rw [pyDelSlice_eq l hse]
  simp [List.length_take, List.length_drop, Nat.min_eq_left (le_trans hse he)]

theorem pyDelSlice_append (as bs : List α) {s e : Nat} (hse : s ≤ e)
    (he : e ≤ as.length) :
    pyDelSlice (as ++ bs) s e = pyDelSlice as s e ++ bs := by
  rw [pyDelSlice_eq _ hse, pyDelSlice_eq _ hse,
    List.take_append_of_le_length (le_trans hse he),
    List.drop_append_of_le_length he, List.append_assoc]

theorem exciseAll_nil (doc : List α) : exciseAll [] doc = doc := rfl

theorem exciseAll_cons (p : Nat × Nat) (rest : List (Nat × Nat)) (doc : List α) :
    exciseAll (p :: rest) doc = exciseAll rest (pyDelSlice doc p.1 p.2) := rfl

theorem spansOkDesc_cons {p : Nat × Nat} {rest : List (Nat × Nat)} {L : Nat} :
    spansOkDesc (p :: rest) L = true ↔
      p.1 ≤ p.2 ∧ p.2 ≤ L ∧ (∀ q ∈ rest, q.2 ≤ p.1) ∧
        spansOkDesc rest L = true := by
  simp [spansOkDesc, List.all_eq_true, and_assoc]

theorem spansOkDesc_mono : ∀ {spans : List (Nat × Nat)} {L M : Nat},
    spansOkDesc spans L = true → (∀ q ∈ spans, q.2 ≤ M) →
    spansOkDesc spans M = true
  | [], _, _, _, _ => rfl
  | p :: rest, L, M, h, hb => by
    rcases spansOkDesc_cons.mp h with ⟨h1, _, h3, h4⟩
    exact spansOkDesc_cons.mpr ⟨h1, hb p (List.mem_cons_self p rest), h3,
      spansOkDesc_mono h4 (fun q hq => hb q (List.mem_cons_of_mem p hq))⟩

theorem exciseAll_append : ∀ (spans : List (Nat × Nat)) (as bs : List α),
    spansOkDesc spans as.length = true →
    exciseAll spans (as ++ bs) = exciseAll spans as ++ bs
  | [], as, bs, _ => rfl
  | p :: rest, as, bs, h => by
    rcases spansOkDesc_cons.mp h with ⟨h1, h2, h3, h4⟩
    rw [exciseAll_cons, exciseAll_cons, pyDelSlice_append as bs h1 h2]
    refine exciseAll_append rest _ bs ?_
    refine spansOkDesc_mono h4 (fun q hq => ?_)
    calc q.2 ≤ p.1 := h3 q hq
      _ ≤ (pyDelSlice as p.1 p.2).length := by
          rw [pyDelSlice_length as h1 h2]; exact Nat.le_add_right _ _

theorem exciseAll_cons_struct (p : Nat × Nat) (rest : List (Nat × Nat))
    (doc : List α) (h : spansOkDesc (p :: rest) doc.length = true) :
    exciseAll (p :: rest) doc = exciseAll rest (doc.take p.1) ++ doc.drop p.2 := by
  rcases spansOkDesc_cons.mp h with ⟨h1, h2, h3, h4⟩
  have htl : (doc.take p.1).length = p.1 := by
    simp [List.length_take, Nat.min_eq_left (le_trans h1 h2)]
  rw [exciseAll_cons, pyDelSlice_eq doc h1]
  refine Eq.trans (exciseAll_append rest _ _ ?_) rfl
  rw [htl]
  exact spansOkDesc_mono h4 h3

theorem spanSizeSum_nil : spanSizeSum [] = 0 := rfl

theorem spanSizeSum_cons (p : Nat × Nat) (rest : List (Nat × Nat)) :
    spanSizeSum (p :: rest) = (p.2 - p.1) + spanSizeSum rest := by
  simp [spanSizeSum]

theorem spanSizeSum_le : ∀ {spans : List (Nat × Nat)} {L : Nat},
    spansOkDesc spans L = true → spanSizeSum spans ≤ L
  | [], _, _ => Nat.zero_le _
  | p :: rest, L, h => by
    rcases spansOkDesc_cons.mp h with ⟨h1, h2, h3, h4⟩
    have hrest : spanSizeSum rest ≤ p.1 :=
      spanSizeSum_le (spansOkDesc_mono h4 h3)
    rw [spanSizeSum_cons]
    omega

theorem exciseAll_length : ∀ (spans : List (Nat × Nat)) (doc : List α),
    spansOkDesc spans doc.length = true →
    (exciseAll spans doc).length = doc.length - spanSizeSum spans
  | [], doc, _ => by simp [exciseAll_nil, spanSizeSum_nil]
  | p :: rest, doc, h => by
    rcases spansOkDesc_cons.mp h with ⟨h1, h2, h3, h4⟩
    have htl : (doc.take p.1).length = p.1 := by
      simp [List.length_take, Nat.min_eq_left (le_trans h1 h2)]
    have hok : spansOkDesc rest (doc.take p.1).length = true := by
      rw [htl]; exact spansOkDesc_mono h4 h3
    have hsum : spanSizeSum rest ≤ p.1 := by
      have := spanSizeSum_le hok; rwa [htl] at this
    rw [exciseAll_cons_struct p rest doc h, List.length_append,
      exciseAll_length rest _ hok, htl, List.length_drop, spanSizeSum_cons]
    omega

theorem exciseAll_sublist : ∀ (spans : List (Nat × Nat)) (doc : List α),
    List.Sublist (exciseAll spans doc) doc
  | [], doc => List.Sublist.refl doc
  | p :: rest, doc => by
    rw [exciseAll_cons]
    refine List.Sublist.trans (exciseAll_sublist rest _) ?_
    unfold pyDelSlice
    conv_rhs => rw [← List.take_append_drop p.1 doc]
    refine List.Sublist.append_left ?_ _
    have h1 : doc.drop (max p.1 p.2) =
        (doc.drop p.1).drop (max p.1 p.2 - p.1) := by
      rw [List.drop_drop]
      congr 1
      omega
    rw [h1]
    exact List.drop_sublist _ _

/-! ### Lemmas: the kept-lines characterisation of removal -/

theorem coveredB_nil (i : Nat) : coveredB i [] = false := rfl

theorem coveredB_cons (i : Nat) (p : Nat × Nat) (rest : List (Nat × Nat)) :
    coveredB i (p :: rest) =
      ((decide (p.1 ≤ i) && decide (i < p.2)) || coveredB i rest) := by
  simp [coveredB]

theorem keepLinesFrom_nil (spans : List (Nat × Nat)) (i : Nat) :
    keepLinesFrom spans i ([] : List α) = [] := rfl

theorem keepLinesFrom_cons2 (spans : List (Nat × Nat)) (i : Nat) (x : α)
    (xs : List α) :
    keepLinesFrom spans i (x :: xs) =
      if coveredB i spans = true then keepLinesFrom spans (i+1) xs
      else x :: keepLinesFrom spans (i+1) xs := rfl

theorem keepLinesFrom_nil_spans : ∀ (i : Nat) (l : List α),
    keepLinesFrom [] i l = l
  | _, [] => rfl
  | i, x :: xs => by
    rw [keepLinesFrom_cons2, coveredB_nil]
    simp [keepLinesFrom_nil_spans (i+1) xs]

theorem keepLinesFrom_append (spans : List (Nat × Nat)) :
    ∀ (i : Nat) (as bs : List α),
    keepLinesFrom spans i (as ++ bs) =
      keepLinesFrom spans i as ++ keepLinesFrom spans (i + as.length) bs
  | i, [], bs => by simp [keepLinesFrom_nil]
  | i, x :: xs, bs => by
    rw [List.cons_append, keepLinesFrom_cons2, keepLinesFrom_cons2,
      keepLinesFrom_append spans (i+1) xs bs]
    have hlen : i + 1 + xs.length = i + (x :: xs).length := by
      simp only [List.length_cons]; omega
    by_cases h : coveredB i spans <;> simp [h, hlen]

theorem keepLinesFrom_of_not_covered (spans : List (Nat × Nat)) :
    ∀ (i : Nat) (l : List α),
    (∀ j, i ≤ j → j < i + l.length → coveredB j spans = false) →
    keepLinesFrom spans i l = l
  | _, [], _ => rfl
  | i, x :: xs, h => by
    rw [keepLinesFrom_cons2,
      h i (Nat.le_refl i) (by simp only [List.length_cons]; omega)]
    simp only [Bool.false_eq_true, if_false]
    rw [keepLinesFrom_of_not_covered spans (i+1) xs
      (fun j hj1 hj2 => h j (by omega)
        (by simp only [List.length_cons]; omega))]

theorem keepLinesFrom_of_covered (spans : List (Nat × Nat)) :
    ∀ (i : Nat) (l : List α),
    (∀ j, i ≤ j → j < i + l.length → coveredB j spans = true) →
    keepLinesFrom spans i l = []
  | _, [], _ => rfl
  | i, x :: xs, h => by
    rw [keepLinesFrom_cons2,
      h i (Nat.le_refl i) (by simp only [List.length_cons]; omega)]
    simp only [if_true]
    exact keepLinesFrom_of_covered spans (i+1) xs
      (fun j hj1 hj2 => h j (by omega)
        (by simp only [List.length_cons]; omega))

theorem keepLinesFrom_cons_high (p : Nat × Nat) (rest : List (Nat × Nat)) :
    ∀ (i : Nat) (l : List α),
    (∀ j, i ≤ j → j < i + l.length → ¬(p.1 ≤ j ∧ j < p.2)) →
    keepLinesFrom (p :: rest) i l = keepLinesFrom rest i l
  | _, [], _ => rfl
  | i, x :: xs, h => by
    rw [keepLinesFrom_cons2, keepLinesFrom_cons2]
    have hp : (decide (p.1 ≤ i) && decide (i < p.2)) = false := by
      have hi := h i (Nat.le_refl i) (by simp only [List.length_cons]; omega)
      by_cases h1 : p.1 ≤ i <;> by_cases h2 : i < p.2 <;>
        simp [h1, h2] at hi ⊢
    rw [coveredB_cons, hp, Bool.false_or]
    have ih := keepLinesFrom_cons_high p rest (i+1) xs
      (fun j hj1 hj2 => h j (by omega)
        (by simp only [List.length_cons] at hj2 ⊢; omega))
    by_cases hc : coveredB i rest <;> simp [hc, ih]

theorem coveredB_eq_false_of_le (i : Nat) :
    ∀ (spans : List (Nat × Nat)), (∀ q ∈ spans, q.2 ≤ i) →
    coveredB i spans = false
  | [], _ => rfl
  | p :: rest, h => by
    rw [coveredB_cons, coveredB_eq_false_of_le i rest
      (fun q hq => h q (List.mem_cons_of_mem p hq))]
    have := h p (List.mem_cons_self p rest)
    simp
    omega

theorem exciseAll_eq_keep : ∀ (spans : List (Nat × Nat)) (doc : List α),
    spansOkDesc spans doc.length = true →
    exciseAll spans doc = keepLinesFrom spans 0 doc
  | [], doc, _ => by rw [exciseAll_nil, keepLinesFrom_nil_spans]
  | p :: rest, doc, h => by
    rcases spansOkDesc_cons.mp h with ⟨h1, h2, h3, h4⟩
    have hp1L : p.1 ≤ doc.length := le_trans h1 h2
    have htl : (doc.take p.1).length = p.1 := by
      simp [List.length_take, Nat.min_eq_left hp1L]
    have htl2 : (doc.take p.2).length = p.2 := by
      simp [List.length_take, Nat.min_eq_left h2]
    have hmidl : ((doc.take p.2).drop p.1).length = p.2 - p.1 := by
      simp [List.length_drop, htl2]
    have hok : spansOkDesc rest (doc.take p.1).length = true := by
      rw [htl]; exact spansOkDesc_mono h4 h3
    -- decompose the document around the span
    have hsplit2 : (doc.take p.2).take p.1 = doc.take p.1 := by
      rw [List.take_take, Nat.min_eq_left h1]
    have hdoc : (doc.take p.1 ++ (doc.take p.2).drop p.1) ++ doc.drop p.2 = doc := by
      rw [← hsplit2, List.take_append_drop, List.take_append_drop]
    rw [exciseAll_cons_struct p rest doc h]
    conv_rhs => rw [← hdoc]
    rw [keepLinesFrom_append, keepLinesFrom_append, List.length_append,
      htl, hmidl]
    simp only [Nat.zero_add]
    -- the lines before the span: the head span never covers them
    have hfirst : keepLinesFrom (p :: rest) 0 (doc.take p.1) =
        keepLinesFrom rest 0 (doc.take p.1) := by
      refine keepLinesFrom_cons_high p rest 0 _ (fun j hj1 hj2 => ?_)
      rw [htl] at hj2; omega
    -- the lines of the span itself: all covered by the head span
    have hmid : keepLinesFrom (p :: rest) p.1 ((doc.take p.2).drop p.1) = [] := by
      refine keepLinesFrom_of_covered _ _ _ (fun j hj1 hj2 => ?_)
      rw [hmidl] at hj2
      rw [coveredB_cons]
      have : (decide (p.1 ≤ j) && decide (j < p.2)) = true := by simp; omega
      rw [this, Bool.true_or]
    -- the lines after the span: no span covers them
    have hlast : keepLinesFrom (p :: rest) (p.1 + (p.2 - p.1)) (doc.drop p.2) =
        doc.drop p.2 := by
      refine keepLinesFrom_of_not_covered _ _ _ (fun j hj1 hj2 => ?_)
      have hj : p.2 ≤ j := by omega
      rw [coveredB_cons]
      have h5 : (decide (p.1 ≤ j) && decide (j < p.2)) = false := by simp; omega
      rw [h5, Bool.false_or]
      exact coveredB_eq_false_of_le j rest
        (fun q hq => le_trans (h3 q hq) (by omega))
    rw [hfirst, hmid, hlast, List.append_nil,
      exciseAll_eq_keep rest (doc.take p.1) hok]

/-! ### Lemmas: extraction and re-insertion -/

theorem extractSpan_append (as bs : List α) (p : Nat × Nat)
    (h : p.2 ≤ as.length) : extractSpan (as ++ bs) p = extractSpan as p := by
  unfold extractSpan pySlice
  rw [List.take_append_of_le_length h]

theorem extractSpan_take (l : List α) (p : Nat × Nat) (n : Nat)
    (h : p.2 ≤ n) : extractSpan (l.take n) p = extractSpan l p := by
  unfold extractSpan pySlice
  rw [List.take_take, Nat.min_eq_left h]

theorem reinsertAll_nil (doc d : List α) : reinsertAll doc [] d = d := rfl

theorem reinsertAll_append (doc : List α) (l1 l2 : List (Nat × Nat))
    (d : List α) :
    reinsertAll doc (l1 ++ l2) d = reinsertAll doc l2 (reinsertAll doc l1 d) :=
  List.foldl_append _ _ _ _

theorem reinsertAll_congr (doc doc2 : List α) :
    ∀ (spans : List (Nat × Nat)) (d : List α),
    (∀ q ∈ spans, extractSpan doc q = extractSpan doc2 q) →
    reinsertAll doc spans d = reinsertAll doc2 spans d
  | [], _, _ => rfl
  | p :: rest, d, h => by
    unfold reinsertAll
    simp only [List.foldl_cons]
    rw [h p (List.mem_cons_self p rest)]
    exact reinsertAll_congr doc doc2 rest _
      (fun q hq => h q (List.mem_cons_of_mem p hq))

theorem reinsert_excise : ∀ (spans : List (Nat × Nat)) (as bs : List α),
    spansOkDesc spans as.length = true →
    reinsertAll (as ++ bs) spans.reverse (exciseAll spans as ++ bs) = as ++ bs
  | [], as, bs, _ => by rw [exciseAll_nil]; rfl
  | p :: rest, as, bs, h => by
    rcases spansOkDesc_cons.mp h with ⟨h1, h2, h3, h4⟩
    have hp1L : p.1 ≤ as.length := le_trans h1 h2
    have htl : (as.take p.1).length = p.1 := by
      simp [List.length_take, Nat.min_eq_left hp1L]
    have hok : spansOkDesc rest (as.take p.1).length = true := by
      rw [htl]; exact spansOkDesc_mono h4 h3
    rw [exciseAll_cons_struct p rest as h, List.reverse_cons,
      reinsertAll_append, List.append_assoc]
    -- rewrite the extraction document for the tail spans
    have hcongr : reinsertAll (as ++ bs) rest.reverse
        (exciseAll rest (as.take p.1) ++ (as.drop p.2 ++ bs)) =
        reinsertAll (as.take p.1 ++ (as.drop p.2 ++ bs)) rest.reverse
        (exciseAll rest (as.take p.1) ++ (as.drop p.2 ++ bs)) := by
      refine reinsertAll_congr _ _ _ _ (fun q hq => ?_)
      have hq2 : q.2 ≤ p.1 := h3 q (List.mem_reverse.mp hq)
      rw [extractSpan_append as bs q (le_trans hq2 hp1L),
        extractSpan_append (as.take p.1) _ q (by rw [htl]; exact hq2),
        extractSpan_take as q p.1 hq2]
    rw [hcongr, reinsert_excise rest (as.take p.1) (as.drop p.2 ++ bs) hok]
    -- now insert the head span's lines back at its start position
    unfold reinsertAll
    simp only [List.foldl_cons, List.foldl_nil]
    unfold insertAt
    have hxt : extractSpan (as ++ bs) p = (as.take p.2).drop p.1 := by
      rw [extractSpan_append as bs p h2]; rfl
    have htake : (as.take p.1 ++ (as.drop p.2 ++ bs)).take p.1 = as.take p.1 := by
      rw [List.take_append_of_le_length (by rw [htl]),
        List.take_of_length_le (by rw [htl])]
    have hdrop : (as.take p.1 ++ (as.drop p.2 ++ bs)).drop p.1 =
        as.drop p.2 ++ bs := by
      rw [List.drop_append_of_le_length (by rw [htl]),
        List.drop_eq_nil_of_le (by rw [htl]), List.nil_append]
    rw [hxt, htake, hdrop]
    have hsplit2 : (as.take p.2).take p.1 = as.take p.1 := by
      rw [List.take_take, Nat.min_eq_left h1]
    rw [← hsplit2, List.take_append_drop, ← List.append_assoc,
      List.take_append_drop]

/-! ### Lemmas: the brace-balance scan -/

theorem scanLoop_zero (lines : List (List Char)) (j : Nat) (bal : Int)
    (op : Bool) : scanLoop lines 0 j bal op = none := rfl

theorem scanLoop_succ_lt (lines : List (List Char)) (fuel j : Nat)
    (bal : Int) (op : Bool) (h : j < lines.length) :
    scanLoop lines (fuel+1) j bal op =
      if (op || lines[j].contains '{') = true ∧ bal + braceDelta lines[j] = 0
      then some (j + 1)
      else scanLoop lines fuel (j+1) (bal + braceDelta lines[j])
        (op || lines[j].contains '{') := by
  have h0 : scanLoop lines (fuel+1) j bal op =
      match lines[j]? with
      | none => none
      | some l =>
        if (op || l.contains '{') = true ∧ bal + braceDelta l = 0
        then some (j + 1)
        else scanLoop lines fuel (j+1) (bal + braceDelta l)
          (op || l.contains '{') := rfl
  rw [h0, List.getElem?_eq_getElem h]

theorem sumDelta_zero (lines : List (List Char)) (j : Nat)
    (h : j < lines.length) : sumDelta lines j 0 = braceDelta lines[j] := by
  unfold sumDelta
  rw [List.drop_eq_getElem_cons h]
  simp only [List.take_succ_cons, List.take_zero, List.map_cons,
    List.map_nil, List.sum_cons, List.sum_nil, add_zero]

theorem sumDelta_succ (lines : List (List Char)) (j n : Nat)
    (h : j < lines.length) :
    sumDelta lines j (n+1) = braceDelta lines[j] + sumDelta lines (j+1) n := by
  unfold sumDelta
  rw [List.drop_eq_getElem_cons h]
  simp only [List.take_succ_cons, List.map_cons, List.sum_cons]

theorem anyOpen_zero (lines : List (List Char)) (j : Nat)
    (h : j < lines.length) : anyOpen lines j 0 = lines[j].contains '{' := by
  unfold anyOpen
  rw [List.drop_eq_getElem_cons h]
  simp only [List.take_succ_cons, List.take_zero, List.any_cons,
    List.any_nil, Bool.or_false]

theorem anyOpen_succ (lines : List (List Char)) (j n : Nat)
    (h : j < lines.length) :
    anyOpen lines j (n+1) = (lines[j].contains '{' || anyOpen lines (j+1) n) := by
  unfold anyOpen
  rw [List.drop_eq_getElem_cons h]
  simp only [List.take_succ_cons, List.any_cons]

theorem acceptState_zero_iff (lines : List (List Char)) (j : Nat) (bal : Int)
    (op : Bool) (h : j < lines.length) :
    acceptState lines j 0 bal op ↔
      ((op || lines[j].contains '{') = true ∧
        bal + braceDelta lines[j] = 0) := by
  unfold acceptState
  rw [anyOpen_zero lines j h, sumDelta_zero lines j h]

theorem acceptState_succ_iff (lines : List (List Char)) (j n : Nat)
    (bal : Int) (op : Bool) (h : j < lines.length) :
    acceptState lines j (n+1) bal op ↔
      acceptState lines (j+1) n (bal + braceDelta lines[j])
        (op || lines[j].contains '{') := by
  unfold acceptState
  rw [anyOpen_succ lines j n h, sumDelta_succ lines j n h,
    ← Bool.or_assoc, ← add_assoc]

theorem acceptState_start (lines : List (List Char)) (j n : Nat) :
    acceptState lines j n 0 false ↔ acceptAt lines j n := by
  unfold acceptState acceptAt
  simp

theorem scanLoop_reaches (lines : List (List Char)) :
    ∀ (m fuel j : Nat) (bal : Int) (op : Bool),
    m < fuel → j + m < lines.length → acceptState lines j m bal op →
    (∀ n, n < m → ¬ acceptState lines j n bal op) →
    scanLoop lines fuel j bal op = some (j + m + 1) := by
  intro m
  induction m with
  | zero =>
    intro fuel j bal op hf hj hacc _
    obtain ⟨f, rfl⟩ : ∃ f, fuel = f + 1 := ⟨fuel - 1, by omega⟩
    have hjl : j < lines.length := by omega
    rw [scanLoop_succ_lt lines f j bal op hjl,
      if_pos ((acceptState_zero_iff lines j bal op hjl).mp hacc)]
  | succ m ih =>
    intro fuel j bal op hf hj hacc hn
    obtain ⟨f, rfl⟩ : ∃ f, fuel = f + 1 := ⟨fuel - 1, by omega⟩
    have hjl : j < lines.length := by omega
    rw [scanLoop_succ_lt lines f j bal op hjl]
    rw [if_neg (fun hc => hn 0 (Nat.succ_pos m)
      ((acceptState_zero_iff lines j bal op hjl).mpr hc))]
    have hres := ih f (j+1) (bal + braceDelta lines[j])
      (op || lines[j].contains '{') (by omega) (by omega)
      ((acceptState_succ_iff lines j m bal op hjl).mp hacc)
      (fun n hlt hacc2 => hn (n+1) (by omega)
        ((acceptState_succ_iff lines j n bal op hjl).mpr hacc2))
    rw [hres]
    congr 1
    omega

theorem scanLoop_exhausts (lines : List (List Char)) :
    ∀ (fuel j : Nat) (bal : Int) (op : Bool),
    (∀ n, n < fuel → j + n < lines.length → ¬ acceptState lines j n bal op) →
    scanLoop lines fuel j bal op = none := by
  intro fuel
  induction fuel with
  | zero => intro j bal op _; rfl
  | succ f ih =>
    intro j bal op hn
    by_cases hjl : j < lines.length
    · rw [scanLoop_succ_lt lines f j bal op hjl]
      rw [if_neg (fun hc => hn 0 (Nat.succ_pos f) (by omega)
        ((acceptState_zero_iff lines j bal op hjl).mpr hc))]
      exact ih (j+1) (bal + braceDelta lines[j]) (op || lines[j].contains '{')
        (fun n hlt hj2 => fun hacc2 => hn (n+1) (by omega) (by omega)
          ((acceptState_succ_iff lines j n bal op hjl).mpr hacc2))
    · have h0 : scanLoop lines (f+1) j bal op =
          match lines[j]? with
          | none => none
          | some l =>
            if (op || l.contains '{') = true ∧ bal + braceDelta l = 0
            then some (j + 1)
            else scanLoop lines f (j+1) (bal + braceDelta l)
              (op || l.contains '{') := rfl
      rw [h0, List.getElem?_eq_none (by omega)]

theorem scanEnd_some (lines : List (List Char)) (i window m : Nat)
    (hm : i + m < min (i + window) lines.length)
    (hacc : acceptAt lines i m)
    (hfirst : ∀ n, n < m → ¬ acceptAt lines i n) :
    scanEnd lines i window = some (i + m + 1) := by
  unfold scanEnd
  refine scanLoop_reaches lines m _ i 0 false (by omega) (by omega)
    ((acceptState_start lines i m).mpr hacc)
    (fun n hlt hacc2 => hfirst n hlt
      ((acceptState_start lines i n).mp hacc2))

theorem scanEnd_none (lines : List (List Char)) (i window : Nat)
    (h : ∀ n, i + n < min (i + window) lines.length → ¬ acceptAt lines i n) :
    scanEnd lines i window = none := by
  unfold scanEnd
  refine scanLoop_exhausts lines _ i 0 false (fun n hf hj hacc2 => ?_)
  exact h n (by omega) ((acceptState_start lines i n).mp hacc2)

/-! ### Lemmas: the signature search -/

theorem findSigIdx_eq_none : ∀ (sig : List Char) (lines : List (List Char)),
    (∀ l ∈ lines, containsSub sig l = false) → findSigIdx sig lines = none
  | _, [], _ => rfl
  | sig, l :: ls, h => by
    unfold findSigIdx
    rw [h l (List.mem_cons_self l ls)]
    simp only [Bool.false_eq_true, if_false]
    rw [findSigIdx_eq_none sig ls (fun x hx => h x (List.mem_cons_of_mem l hx))]
    rfl

theorem findSigIdx_first : ∀ (sig : List Char) (lines : List (List Char))
    (i : Nat), findSigIdx sig lines = some i →
    i < lines.length ∧ containsSub sig (lines.getD i []) = true ∧
      ∀ k, k < i → containsSub sig (lines.getD k []) = false
  | sig, [], i, h => by simp [findSigIdx] at h
  | sig, l :: ls, i, h => by
    unfold findSigIdx at h
    by_cases hc : containsSub sig l = true
    · rw [if_pos hc] at h
      obtain rfl : i = 0 := by
        exact (Option.some_inj.mp h).symm
      refine ⟨by simp, by simpa using hc, fun k hk => absurd hk (by omega)⟩
    · rw [if_neg hc] at h
      obtain ⟨j, hj, rfl⟩ : ∃ j, findSigIdx sig ls = some j ∧ i = j + 1 := by
        rcases ho : findSigIdx sig ls with _ | j
        · rw [ho] at h; simp at h
        · rw [ho] at h; simp at h; exact ⟨j, rfl, h.symm⟩
      obtain ⟨h1, h2, h3⟩ := findSigIdx_first sig ls j hj
      refine ⟨by simp; omega, by simpa using h2, fun k hk => ?_⟩
      match k with
      | 0 => simpa using (Bool.eq_false_iff.mpr hc)
      | k + 1 => simpa using h3 k (by omega)

theorem findBlock_none_of_absent (sig : List Char) (w : Nat)
    (lines : List (List Char)) (h : ∀ l ∈ lines, containsSub sig l = false) :
    findBlock sig w lines = none := by
  unfold findBlock
  rw [findSigIdx_eq_none sig lines h]

theorem collectSpans_nil (lines : List (List Char)) :
    collectSpans [] lines = [] := rfl

theorem collectSpans_cons (t : List Char × Nat) (ts : List (List Char × Nat))
    (lines : List (List Char)) :
    collectSpans (t :: ts) lines =
      (findBlock t.1 t.2 lines).toList ++ collectSpans ts lines := by
  show (match findBlock t.1 t.2 lines with
    | none => collectSpans ts lines
    | some p => p :: collectSpans ts lines) =
    (findBlock t.1 t.2 lines).toList ++ collectSpans ts lines
  rcases findBlock t.1 t.2 lines with _ | p <;> rfl

/-! ### Lemmas: Python `str.replace` -/

theorem pyReplaceCore_nil (pat repl : List Char) : ∀ (skip : Nat),
    pyReplaceCore pat repl skip [] = []
  | 0 => rfl
  | _ + 1 => rfl

theorem pyReplaceCore_skip (pat repl : List Char) (skip : Nat) (c : Char)
    (cs : List Char) :
    pyReplaceCore pat repl (skip+1) (c :: cs) = pyReplaceCore pat repl skip cs :=
  rfl

theorem pyReplaceCore_zero_cons (pat repl : List Char) (c : Char)
    (cs : List Char) :
    pyReplaceCore pat repl 0 (c :: cs) =
      if pat <+: (c :: cs) ∧ pat ≠ []
      then repl ++ pyReplaceCore pat repl (pat.length - 1) cs
      else c :: pyReplaceCore pat repl 0 cs := rfl

theorem pyReplaceCore_skipRun (pat repl : List Char) :
    ∀ (t rest : List Char),
    pyReplaceCore pat repl t.length (t ++ rest) = pyReplaceCore pat repl 0 rest
  | [], _ => rfl
  | _ :: t, rest => pyReplaceCore_skipRun pat repl t rest

theorem pyReplaceCore_match (pat repl : List Char) (b : List Char)
    (hne : pat ≠ []) :
    pyReplaceCore pat repl 0 (pat ++ b) = repl ++ pyReplaceCore pat repl 0 b := by
  obtain ⟨c, t, rfl⟩ : ∃ c t, pat = c :: t := by
    rcases pat with _ | ⟨c, t⟩
    · exact absurd rfl hne
    · exact ⟨c, t, rfl⟩
  rw [List.cons_append, pyReplaceCore_zero_cons,
    if_pos ⟨List.prefix_append _ _, hne⟩]
  have hl : (c :: t).length - 1 = t.length := by simp
  rw [hl, pyReplaceCore_skipRun (c :: t) repl t b]

theorem pyReplaceCore_length_ge (pat repl : List Char)
    (hlen : pat.length ≤ repl.length) :
    ∀ (skip : Nat) (s : List Char),
    s.length - skip ≤ (pyReplaceCore pat repl skip s).length
  | _, [] => by simp [pyReplaceCore_nil]
  | skip+1, c :: cs => by
    rw [pyReplaceCore_skip]
    have := pyReplaceCore_length_ge pat repl hlen skip cs
    simp only [List.length_cons]
    omega
  | 0, c :: cs => by
    rw [pyReplaceCore_zero_cons]
    by_cases h : pat <+: (c :: cs) ∧ pat ≠ []
    · rw [if_pos h]
      have h1 : pat.length ≤ (c :: cs).length := h.1.length_le
      have h2 : 0 < pat.length := List.length_pos.mpr h.2
      have := pyReplaceCore_length_ge pat repl hlen (pat.length - 1) cs
      simp only [List.length_append, List.length_cons] at *
      omega
    · rw [if_neg h]
      have := pyReplaceCore_length_ge pat repl hlen 0 cs
      simp only [List.length_cons]
      omega

theorem pyReplaceCore_length_le (pat repl : List Char)
    (hlen : repl.length ≤ pat.length) :
    ∀ (skip : Nat) (s : List Char),
    (pyReplaceCore pat repl skip s).length ≤ s.length - skip
  | _, [] => by simp [pyReplaceCore_nil]
  | skip+1, c :: cs => by
    rw [pyReplaceCore_skip]
    have := pyReplaceCore_length_le pat repl hlen skip cs
    simp only [List.length_cons]
    omega
  | 0, c :: cs => by
    rw [pyReplaceCore_zero_cons]
    by_cases h : pat <+: (c :: cs) ∧ pat ≠ []
    · rw [if_pos h]
      have h1 : pat.length ≤ (c :: cs).length := h.1.length_le
      have h2 : 0 < pat.length := List.length_pos.mpr h.2
      have := pyReplaceCore_length_le pat repl hlen (pat.length - 1) cs
      simp only [List.length_append, List.length_cons] at *
      omega
    · rw [if_neg h]
      have := pyReplaceCore_length_le pat repl hlen 0 cs
      simp only [List.length_cons]
      omega

theorem containsSub_nil (pat : List Char) :
    containsSub pat [] = pat.isEmpty := rfl

theorem containsSub_cons (pat : List Char) (c : Char) (cs : List Char) :
    containsSub pat (c :: cs) =
      (pat.isPrefixOf (c :: cs) || containsSub pat cs) := rfl

theorem pyReplace_changes (pat repl : List Char) (hne : pat ≠ [])
    (hlen : pat.length ≠ repl.length) :
    ∀ (s : List Char), containsSub pat s = true →
    pyReplaceCore pat repl 0 s ≠ s
  | [], hocc => by
    rw [containsSub_nil, List.isEmpty_iff] at hocc
    exact absurd hocc hne
  | c :: cs, hocc => by
    by_cases hpre : pat <+: (c :: cs)
    · obtain ⟨b, hb⟩ := hpre
      rw [← hb, pyReplaceCore_match pat repl b hne]
      intro heq
      have hleq := congrArg List.length heq
      simp only [List.length_append] at hleq
      rcases Nat.lt_or_ge pat.length repl.length with hc | hc
      · have := pyReplaceCore_length_ge pat repl (le_of_lt hc) 0 b
        omega
      · have hc2 : repl.length < pat.length := by omega
        have := pyReplaceCore_length_le pat repl (le_of_lt hc2) 0 b
        omega
    · rw [pyReplaceCore_zero_cons, if_neg (fun hand => hpre hand.1)]
      rw [containsSub_cons] at hocc
      have hocc2 : containsSub pat cs = true := by
        rcases (by simpa using hocc :
            pat.isPrefixOf (c :: cs) = true ∨ containsSub pat cs = true)
          with h | h
        · exact absurd (List.isPrefixOf_iff_prefix.mp h) hpre
        · exact h
      intro heq
      injection heq with h1 h2
      exact pyReplace_changes pat repl hne hlen cs hocc2 h2

/-! ### Lemmas: the per-variable regex substitution, basic equations -/

theorem reSubCore_nil (qual v : List Char) : ∀ (skip : Nat) (pre : List Char),
    reSubCore qual v skip pre [] = []
  | 0, _ => rfl
  | _ + 1, _ => rfl

theorem reSubCore_skip (qual v : List Char) (skip : Nat) (pre : List Char)
    (c : Char) (cs : List Char) :
    reSubCore qual v (skip+1) pre (c :: cs) = reSubCore qual v skip (c :: pre) cs :=
  rfl

theorem reSubCore_zero_cons (qual v pre : List Char) (c : Char)
    (cs : List Char) :
    reSubCore qual v 0 pre (c :: cs) =
      if matchesAt qual v pre (c :: cs) = true
      then (qual ++ '.' :: v) ++ reSubCore qual v (v.length - 1) (c :: pre) cs
      else c :: reSubCore qual v 0 (c :: pre) cs := rfl

theorem lookbehindOk_eq (qual pre : List Char) :
    lookbehindOk qual pre = headNotDot pre := by
  cases pre with
  | nil => rfl
  | cons c pre2 =>
    by_cases hc : c = '.'
    · subst hc
      simp [lookbehindOk, headNotDot]
    · have hb : ('.' == c) = false := by
        simp [hc, Ne.symm hc]
      simp [lookbehindOk, headNotDot, List.isPrefixOf, hb, hc]

theorem matchesAt_iff (qual v pre s : List Char) :
    matchesAt qual v pre s = true ↔
      v <+: s ∧ headNotWord pre = true ∧ headNotDot pre = true ∧
        headNotWord (s.drop v.length) = true := by
  unfold matchesAt
  rw [lookbehindOk_eq]
  simp [List.isPrefixOf_iff_prefix, Bool.and_eq_true, and_assoc]

theorem matchesAt_false_of_word (qual v pre s : List Char)
    (h : headNotWord pre = false) : matchesAt qual v pre s = false := by
  unfold matchesAt
  rw [h]
  simp

theorem matchesAt_false_of_dot (qual v pre s : List Char)
    (h : headNotDot pre = false) : matchesAt qual v pre s = false := by
  unfold matchesAt
  rw [lookbehindOk_eq, h]
  simp

theorem matchesAt_false_dotStart (qual v : List Char) (hv : v ≠ [])
    (hvw : ∀ x ∈ v, wordChar x = true) (pre X : List Char) :
    matchesAt qual v pre ('.' :: X) = false := by
  obtain ⟨c, t, rfl⟩ : ∃ c t, v = c :: t := by
    rcases v with _ | ⟨c, t⟩
    · exact absurd rfl hv
    · exact ⟨c, t, rfl⟩
  have hcw : wordChar c = true := hvw c (List.mem_cons_self c t)
  have hb : (c == '.') = false := by
    by_cases hc : c = '.'
    · subst hc
      exact absurd hcw (by decide)
    · simp [hc]
  simp [matchesAt, List.isPrefixOf, hb]

theorem headNotWord_congr {pre1 pre2 : List Char}
    (h : pre1.head? = pre2.head?) : headNotWord pre1 = headNotWord pre2 := by
  cases pre1 <;> cases pre2 <;> simp_all [headNotWord]

theorem headNotDot_congr {pre1 pre2 : List Char}
    (h : pre1.head? = pre2.head?) : headNotDot pre1 = headNotDot pre2 := by
  cases pre1 <;> cases pre2 <;> simp_all [headNotDot]

theorem matchesAt_congr (qual v s : List Char) {pre1 pre2 : List Char}
    (h : pre1.head? = pre2.head?) :
    matchesAt qual v pre1 s = matchesAt qual v pre2 s := by
  unfold matchesAt
  rw [lookbehindOk_eq, lookbehindOk_eq, headNotWord_congr h, headNotDot_congr h]

theorem reSubCore_pre_congr (qual v : List Char) :
    ∀ (s : List Char) (skip : Nat) (pre1 pre2 : List Char),
    pre1.head? = pre2.head? →
    reSubCore qual v skip pre1 s = reSubCore qual v skip pre2 s
  | [], skip, pre1, pre2, _ => by rw [reSubCore_nil, reSubCore_nil]
  | c :: cs, skip+1, pre1, pre2, _ => by
    rw [reSubCore_skip, reSubCore_skip]
    exact reSubCore_pre_congr qual v cs skip (c :: pre1) (c :: pre2) rfl
  | c :: cs, 0, pre1, pre2, h => by
    rw [reSubCore_zero_cons, reSubCore_zero_cons,
      matchesAt_congr qual v (c :: cs) h]
    by_cases hm : matchesAt qual v pre2 (c :: cs) = true
    · rw [if_pos hm, if_pos hm]
      congr 1
      exact reSubCore_pre_congr qual v cs (v.length - 1) (c :: pre1) (c :: pre2) rfl
    · rw [if_neg hm, if_neg hm]
      congr 1
      exact reSubCore_pre_congr qual v cs 0 (c :: pre1) (c :: pre2) rfl

theorem reSubCore_skipRun (qual v : List Char) :
    ∀ (t pre rest : List Char),
    reSubCore qual v t.length pre (t ++ rest) =
      reSubCore qual v 0 (t.reverse ++ pre) rest
  | [], _, _ => rfl
  | c :: t, pre, rest => by
    rw [List.cons_append, show (c :: t).length = t.length + 1 from rfl,
      reSubCore_skip, reSubCore_skipRun qual v t (c :: pre) rest]
    congr 1
    simp

theorem reSubCore_match (qual v : List Char) (hv : v ≠ []) (b pre : List Char)
    (hm : matchesAt qual v pre (v ++ b) = true) :
    reSubCore qual v 0 pre (v ++ b) =
      (qual ++ '.' :: v) ++ reSubCore qual v 0 (v.reverse ++ pre) b := by
  obtain ⟨c, t, rfl⟩ : ∃ c t, v = c :: t := by
    rcases v with _ | ⟨c, t⟩
    · exact absurd rfl hv
    · exact ⟨c, t, rfl⟩
  rw [List.cons_append] at hm ⊢
  rw [reSubCore_zero_cons, if_pos hm]
  have hl : (c :: t).length - 1 = t.length := by simp
  rw [hl, reSubCore_skipRun qual (c :: t) t (c :: pre) b]
  congr 2
  simp

theorem reSubCore_length_ge (qual v : List Char) :
    ∀ (s : List Char) (skip : Nat) (pre : List Char),
    s.length - skip ≤ (reSubCore qual v skip pre s).length
  | [], skip, pre => by rw [reSubCore_nil]; simp
  | c :: cs, skip+1, pre => by
    rw [reSubCore_skip]
    have := reSubCore_length_ge qual v cs skip (c :: pre)
    simp only [List.length_cons]
    omega
  | c :: cs, 0, pre => by
    rw [reSubCore_zero_cons]
    by_cases hm : matchesAt qual v pre (c :: cs) = true
    · rw [if_pos hm]
      have := reSubCore_length_ge qual v cs (v.length - 1) (c :: pre)
      simp only [List.length_append, List.length_cons]
      omega
    · rw [if_neg hm]
      have := reSubCore_length_ge qual v cs 0 (c :: pre)
      simp only [List.length_cons]
      omega

theorem reSubCore_ne_of_match (qual v : List Char) (hv : v ≠ [])
    (pre : List Char) (c : Char) (cs : List Char)
    (hm : matchesAt qual v pre (c :: cs) = true) :
    reSubCore qual v 0 pre (c :: cs) ≠ c :: cs := by
  rw [reSubCore_zero_cons, if_pos hm]
  intro heq
  have hle := congrArg List.length heq
  have hge := reSubCore_length_ge qual v cs (v.length - 1) (c :: pre)
  have hvp : v.length ≤ (c :: cs).length :=
    ((matchesAt_iff qual v pre (c :: cs)).mp hm).1.length_le
  have hv1 : 0 < v.length := List.length_pos.mpr hv
  simp only [List.length_append, List.length_cons] at hle hvp
  omega

theorem reSubCore_clean_cons (qual v : List Char) (hv : v ≠ [])
    (pre : List Char) (c : Char) (cs : List Char) :
    reSubCore qual v 0 pre (c :: cs) = c :: cs ↔
      matchesAt qual v pre (c :: cs) = false ∧
        reSubCore qual v 0 (c :: pre) cs = cs := by
  constructor
  · intro h
    by_cases hm : matchesAt qual v pre (c :: cs) = true
    · exact absurd h (reSubCore_ne_of_match qual v hv pre c cs hm)
    · rw [reSubCore_zero_cons, if_neg hm] at h
      injection h with h1 h2
      exact ⟨by simpa using hm, h2⟩
  · intro h
    rw [reSubCore_zero_cons, if_neg (by simp [h.1]), h.2]

theorem reSubCore_clean_tail (qual v : List Char) (hv : v ≠ []) :
    ∀ (t pre r : List Char),
    reSubCore qual v 0 pre (t ++ r) = t ++ r →
    reSubCore qual v 0 (t.reverse ++ pre) r = r
  | [], pre, r, h => h
  | c :: t, pre, r, h => by
    rw [List.cons_append] at h
    have h2 := ((reSubCore_clean_cons qual v hv pre c (t ++ r)).mp h).2
    have h3 := reSubCore_clean_tail qual v hv t (c :: pre) r h2
    rw [show (c :: t).reverse ++ pre = t.reverse ++ (c :: pre) by simp]
    exact h3

theorem reSubCore_fmd (qual v : List Char) (hv : v ≠ []) :
    ∀ (s pre : List Char),
    reSubCore qual v 0 pre s = s ∨
    ∃ a b, s = a ++ (v ++ b) ∧
      reSubCore qual v 0 pre s =
        a ++ ((qual ++ '.' :: v) ++
          reSubCore qual v 0 (v.reverse ++ (a.reverse ++ pre)) b)
  | [], pre => Or.inl (reSubCore_nil qual v 0 pre)
  | c :: cs, pre => by
    by_cases hm : matchesAt qual v pre (c :: cs) = true
    · right
      obtain ⟨b, hb⟩ := ((matchesAt_iff qual v pre (c :: cs)).mp hm).1
      refine ⟨[], b, by rw [← hb]; simp, ?_⟩
      rw [← hb, reSubCore_match qual v hv b pre (by rw [hb]; exact hm)]
      simp
    · have h2 := reSubCore_fmd qual v hv cs (c :: pre)
      rw [reSubCore_zero_cons, if_neg hm]
      rcases h2 with h2 | ⟨a, b, hab, hout⟩
      · left
        rw [h2]
      · right
        refine ⟨c :: a, b, by rw [hab]; simp, ?_⟩
        rw [hout, List.cons_append]
        congr 2
        simp

theorem reSubCore_walk_word (qual v : List Char) :
    ∀ (t pre R : List Char),
    (∀ x ∈ t, wordChar x = true) → headNotWord pre = false →
    reSubCore qual v 0 pre (t ++ R) = t ++ reSubCore qual v 0 (t.reverse ++ pre) R
  | [], pre, R, _, _ => by simp
  | c :: t, pre, R, ht, hp => by
    rw [List.cons_append, reSubCore_zero_cons,
      if_neg (by simp [matchesAt_false_of_word qual v pre _ hp])]
    have hcw : wordChar c = true := ht c (List.mem_cons_self c t)
    have hp2 : headNotWord (c :: pre) = false := by
      simp [headNotWord, hcw]
    rw [reSubCore_walk_word qual v t (c :: pre) R
      (fun x hx => ht x (List.mem_cons_of_mem c hx)) hp2]
    rw [show t.reverse ++ (c :: pre) = (c :: t).reverse ++ pre by simp]
    rfl

theorem reSubCore_dot_block (qual v : List Char) (hv : v ≠ [])
    (hvw : ∀ x ∈ v, wordChar x = true) (pre R : List Char)
    (hp : headNotDot pre = false) :
    reSubCore qual v 0 pre (v ++ R) = v ++ reSubCore qual v 0 (v.reverse ++ pre) R := by
  obtain ⟨c, t, rfl⟩ : ∃ c t, v = c :: t := by
    rcases v with _ | ⟨c, t⟩
    · exact absurd rfl hv
    · exact ⟨c, t, rfl⟩
  rw [List.cons_append, reSubCore_zero_cons,
    if_neg (by simp [matchesAt_false_of_dot qual _ pre _ hp])]
  have hcw : wordChar c = true := hvw c (List.mem_cons_self c t)
  have hp2 : headNotWord (c :: pre) = false := by
    simp [headNotWord, hcw]
  rw [reSubCore_walk_word qual (c :: t) t (c :: pre) R
    (fun x hx => hvw x (List.mem_cons_of_mem c hx)) hp2]
  rw [show t.reverse ++ (c :: pre) = (c :: t).reverse ++ pre by simp]
  rfl

/-! ### Lemmas: no new matches are created by a substitution

The inserted text is `qual ++ "." ++ w`.  Since every character of `qual`
and of a matched variable is a word character and the qualifier is followed
by a dot, a whole-word, not-dot-preceded occurrence of a variable `v` can
neither start inside the inserted text nor extend into it from the left
(unless `v` ends in `qual` itself, which is excluded by hypothesis). -/

theorem matchesAt_qualblock (qual v : List Char)
    (hvw : ∀ x ∈ v, wordChar x = true)
    (hq : ∀ x ∈ qual, wordChar x = true)
    (hsuf : ¬ List.IsSuffix qual v) (pre X : List Char) :
    matchesAt qual v pre (qual ++ '.' :: X) = false := by
  by_contra hm0
  have hm2 : matchesAt qual v pre (qual ++ '.' :: X) = true := by simpa using hm0
  obtain ⟨hpre, hw1, hd1, hafter⟩ := (matchesAt_iff qual v pre _).mp hm2
  rcases Nat.lt_trichotomy v.length qual.length with hlt | heq | hgt
  · -- v a proper prefix of qual: the character after the match is a word
    -- character of qual, so the trailing boundary fails
    have hdropeq : (qual ++ '.' :: X).drop v.length =
        qual.drop v.length ++ '.' :: X :=
      List.drop_append_of_le_length (le_of_lt hlt)
    have hne2 : qual.drop v.length ≠ [] := by
      intro h0
      have := congrArg List.length h0
      simp at this
      omega
    obtain ⟨d, ds, hds⟩ : ∃ d ds, qual.drop v.length = d :: ds := by
      rcases hqd : qual.drop v.length with _ | ⟨d, ds⟩
      · exact absurd hqd hne2
      · exact ⟨d, ds, rfl⟩
    have hdmem : d ∈ qual :=
      (List.drop_suffix v.length qual).subset (hds ▸ List.mem_cons_self d ds)
    rw [hdropeq, hds, List.cons_append] at hafter
    have hbad : headNotWord (d :: (ds ++ '.' :: X)) = false := by
      simp [headNotWord, hq d hdmem]
    rw [hbad] at hafter
    exact absurd hafter (by simp)
  · -- same length: v would be qual itself
    have hvq : v <+: qual :=
      List.prefix_of_prefix_length_le hpre (List.prefix_append qual _)
        (le_of_eq heq)
    have hve : v = qual := List.IsPrefix.eq_of_length_le hvq (by omega)
    exact hsuf (hve ▸ List.suffix_refl qual)
  · -- longer than qual: v would contain the dot
    have hqd : (qual ++ ['.']) <+: (qual ++ '.' :: X) := ⟨X, by simp⟩
    have hqdv : (qual ++ ['.']) <+: v :=
      List.prefix_of_prefix_length_le hqd hpre (by simp; omega)
    have hin : ('.' : Char) ∈ v := hqdv.subset (by simp)
    exact absurd (hvw '.' hin) (by decide)

theorem matchesAt_insert_invariant (qual v w : List Char)
    (hvw : ∀ x ∈ v, wordChar x = true)
    (hq : ∀ x ∈ qual, wordChar x = true) (hqne : qual ≠ [])
    (hsuf : ¬ List.IsSuffix qual v)
    (c : Char) (pre a b RB : List Char)
    (hnm : matchesAt qual v pre (c :: (a ++ (w ++ b))) = false) :
    matchesAt qual v pre (c :: (a ++ ((qual ++ '.' :: w) ++ RB))) = false := by
  by_contra hm0
  have hm2 : matchesAt qual v pre (c :: (a ++ ((qual ++ '.' :: w) ++ RB))) = true := by
    simpa using hm0
  have hsh2 : c :: (a ++ ((qual ++ '.' :: w) ++ RB)) =
      (c :: a) ++ (qual ++ '.' :: (w ++ RB)) := by simp
  have hsh1 : c :: (a ++ (w ++ b)) = (c :: a) ++ (w ++ b) := by simp
  rw [hsh2] at hm2
  rw [hsh1] at hnm
  obtain ⟨hpre, hw1, hd1, hafter⟩ := (matchesAt_iff qual v pre _).mp hm2
  rcases Nat.lt_trichotomy v.length (a.length + 1) with hlt | heq | hgt
  · -- the occurrence lies inside the shared region `c :: a`: it already
    -- matched in the old text, contradicting `hnm`
    have hca : (c :: a) <+: ((c :: a) ++ (qual ++ '.' :: (w ++ RB))) :=
      List.prefix_append _ _
    have hvca : v <+: (c :: a) :=
      List.prefix_of_prefix_length_le hpre hca (by simp; omega)
    have hdropca : (c :: a).drop v.length ≠ [] := by
      intro h0
      have := congrArg List.length h0
      simp at this
      omega
    obtain ⟨d, ds, hds⟩ : ∃ d ds, (c :: a).drop v.length = d :: ds := by
      rcases hqd : (c :: a).drop v.length with _ | ⟨d, ds⟩
      · exact absurd hqd hdropca
      · exact ⟨d, ds, rfl⟩
    have hvle : v.length ≤ (c :: a).length := by simp; omega
    have hd2 : ((c :: a) ++ (qual ++ '.' :: (w ++ RB))).drop v.length =
        d :: (ds ++ (qual ++ '.' :: (w ++ RB))) := by
      rw [List.drop_append_of_le_length hvle, hds, List.cons_append]
    have hd1' : ((c :: a) ++ (w ++ b)).drop v.length =
        d :: (ds ++ (w ++ b)) := by
      rw [List.drop_append_of_le_length hvle, hds, List.cons_append]
    rw [hd2] at hafter
    have hmatch1 : matchesAt qual v pre ((c :: a) ++ (w ++ b)) = true := by
      refine (matchesAt_iff qual v pre _).mpr
        ⟨hvca.trans (List.prefix_append _ _), hw1, hd1, ?_⟩
      rw [hd1']
      simpa [headNotWord] using hafter
    rw [hmatch1] at hnm
    exact absurd hnm (by simp)
  · -- v = c :: a: the character after the match is the head of qual
    obtain ⟨qh, qt, hqd⟩ : ∃ qh qt, qual = qh :: qt := by
      rcases qual with _ | ⟨qh, qt⟩
      · exact absurd rfl hqne
      · exact ⟨qh, qt, rfl⟩
    have hvle : v.length = (c :: a).length := by simp; omega
    have hdrop : ((c :: a) ++ (qual ++ '.' :: (w ++ RB))).drop v.length =
        qual ++ '.' :: (w ++ RB) := by
      rw [hvle, List.drop_left]
    rw [hdrop, hqd, List.cons_append] at hafter
    have hbad : headNotWord (qh :: (qt ++ '.' :: (w ++ RB))) = false := by
      simp [headNotWord, hq qh (hqd ▸ List.mem_cons_self qh qt)]
    rw [hbad] at hafter
    exact absurd hafter (by simp)
  · -- the occurrence extends from `c :: a` into the inserted text
    have hca2 : (c :: a) <+: ((c :: a) ++ (qual ++ '.' :: (w ++ RB))) :=
      List.prefix_append _ _
    have hcav : (c :: a) <+: v :=
      List.prefix_of_prefix_length_le hca2 hpre (by simp; omega)
    obtain ⟨q, hq2⟩ := hcav
    have hqlen : a.length + q.length + 1 = v.length := by
      simpa using congrArg List.length hq2
    have hqne2 : q ≠ [] := by
      intro h0
      rw [h0] at hqlen
      simp at hqlen
      omega
    -- q is a prefix of the inserted text
    obtain ⟨rem, hrem⟩ := hpre
    have hqpre : q <+: (qual ++ '.' :: (w ++ RB)) := by
      refine ⟨rem, ?_⟩
      have : ((c :: a) ++ q) ++ rem = (c :: a) ++ (qual ++ '.' :: (w ++ RB)) := by
        rw [hq2, hrem]
      rw [List.append_assoc] at this
      exact List.append_cancel_left this
    rcases Nat.lt_trichotomy q.length qual.length with hql | hqe | hqg
    · -- q a proper prefix of qual: trailing boundary fails on a word char
      have hvlen2 : v.length = (c :: a).length + q.length := by
        simp
        omega
      have hdropv : ((c :: a) ++ (qual ++ '.' :: (w ++ RB))).drop v.length =
          (qual ++ '.' :: (w ++ RB)).drop q.length := by
        rw [hvlen2, ← List.drop_drop, List.drop_left]
      have hdropq : (qual ++ '.' :: (w ++ RB)).drop q.length =
          qual.drop q.length ++ '.' :: (w ++ RB) :=
        List.drop_append_of_le_length (le_of_lt hql)
      have hne2 : qual.drop q.length ≠ [] := by
        intro h0
        have := congrArg List.length h0
        simp at this
        omega
      obtain ⟨d, ds, hds⟩ : ∃ d ds, qual.drop q.length = d :: ds := by
        rcases hqd : qual.drop q.length with _ | ⟨d, ds⟩
        · exact absurd hqd hne2
        · exact ⟨d, ds, rfl⟩
      have hdmem : d ∈ qual :=
        (List.drop_suffix q.length qual).subset (hds ▸ List.mem_cons_self d ds)
      rw [hdropv, hdropq, hds, List.cons_append] at hafter
      have hbad : headNotWord (d :: (ds ++ '.' :: (w ++ RB))) = false := by
        simp [headNotWord, hq d hdmem]
      rw [hbad] at hafter
      exact absurd hafter (by simp)
    · -- q = qual: then v ends in qual
      have hqq : q <+: qual :=
        List.prefix_of_prefix_length_le hqpre (List.prefix_append qual _)
          (le_of_eq hqe)
      have hqeq : q = qual := List.IsPrefix.eq_of_length_le hqq (by omega)
      exact hsuf ⟨c :: a, by rw [← hq2, hqeq]⟩
    · -- q longer than qual: q would contain the dot
      have hqd : (qual ++ ['.']) <+: (qual ++ '.' :: (w ++ RB)) :=
        ⟨w ++ RB, by simp⟩
      have hqdq : (qual ++ ['.']) <+: q :=
        List.prefix_of_prefix_length_le hqd hqpre (by simp; omega)
      have hin : ('.' : Char) ∈ q := hqdq.subset (by simp)
      have hinv : ('.' : Char) ∈ v := by
        have hsufq : List.IsSuffix q v := ⟨c :: a, hq2⟩
        exact hsufq.subset hin
      exact absurd (hvw '.' hinv) (by decide)

/-- Scanning for `v` walks through one inserted block `qual ++ "." ++ w`
without matching anywhere in it, and continues cleanly afterwards. -/
theorem reSubCore_walk_insert (qual v w : List Char)
    (hv : v ≠ []) (hvw : ∀ x ∈ v, wordChar x = true)
    (hq : ∀ x ∈ qual, wordChar x = true) (hqne : qual ≠ [])
    (hsuf : ¬ List.IsSuffix qual v)
    (hwne : w ≠ []) (hww : ∀ x ∈ w, wordChar x = true)
    (pre R : List Char)
    (hR : reSubCore qual v 0 (w.reverse ++ ('.' :: (qual.reverse ++ pre))) R = R) :
    reSubCore qual v 0 pre ((qual ++ '.' :: w) ++ R) = (qual ++ '.' :: w) ++ R := by
  obtain ⟨qh, qt, rfl⟩ : ∃ qh qt, qual = qh :: qt := by
    rcases qual with _ | ⟨qh, qt⟩
    · exact absurd rfl hqne
    · exact ⟨qh, qt, rfl⟩
  obtain ⟨wh, wt, rfl⟩ : ∃ wh wt, w = wh :: wt := by
    rcases w with _ | ⟨wh, wt⟩
    · exact absurd rfl hwne
    · exact ⟨wh, wt, rfl⟩
  have hshape : ((qh :: qt) ++ '.' :: (wh :: wt)) ++ R =
      qh :: (qt ++ ('.' :: (wh :: (wt ++ R)))) := by simp
  rw [hshape]
  have hm0 : matchesAt (qh :: qt) v pre
      (qh :: (qt ++ ('.' :: (wh :: (wt ++ R))))) = false := by
    have h0 := matchesAt_qualblock (qh :: qt) v hvw hq hsuf pre ((wh :: wt) ++ R)
    simpa using h0
  rw [reSubCore_zero_cons, if_neg (by simp [hm0])]
  have hqtw : ∀ x ∈ qt, wordChar x = true :=
    fun x hx => hq x (List.mem_cons_of_mem qh hx)
  have hqh : headNotWord (qh :: pre) = false := by
    simp [headNotWord, hq qh (List.mem_cons_self qh qt)]
  rw [reSubCore_walk_word (qh :: qt) v qt (qh :: pre)
    ('.' :: (wh :: (wt ++ R))) hqtw hqh]
  rw [reSubCore_zero_cons,
    if_neg (by simp [matchesAt_false_dotStart (qh :: qt) v hv hvw
      (qt.reverse ++ (qh :: pre)) (wh :: (wt ++ R))])]
  rw [reSubCore_zero_cons,
    if_neg (by simp [matchesAt_false_of_dot (qh :: qt) v
      ('.' :: (qt.reverse ++ (qh :: pre))) (wh :: (wt ++ R))
      (by simp [headNotDot])])]
  have hwtw : ∀ x ∈ wt, wordChar x = true :=
    fun x hx => hww x (List.mem_cons_of_mem wh hx)
  have hwh : headNotWord (wh :: ('.' :: (qt.reverse ++ (qh :: pre)))) = false := by
    simp [headNotWord, hww wh (List.mem_cons_self wh wt)]
  rw [reSubCore_walk_word (qh :: qt) v wt
    (wh :: ('.' :: (qt.reverse ++ (qh :: pre)))) R hwtw hwh]
  have hpr : wt.reverse ++ (wh :: ('.' :: (qt.reverse ++ (qh :: pre)))) =
      (wh :: wt).reverse ++ ('.' :: ((qh :: qt).reverse ++ pre)) := by simp
  rw [hpr, hR]

/-- Main invariant: scanning for `v` over the result of one substitution
pass for `w` changes nothing, provided `v` either had no unqualified
occurrences to begin with or is `w` itself (whose occurrences the pass just
qualified). -/
theorem reSubCore_clean_after (qual v w : List Char)
    (hv : v ≠ []) (hvw : ∀ x ∈ v, wordChar x = true)
    (hq : ∀ x ∈ qual, wordChar x = true) (hqne : qual ≠ [])
    (hsuf : ¬ List.IsSuffix qual v)
    (hw : w ≠ []) (hww : ∀ x ∈ w, wordChar x = true) :
    ∀ (n : Nat) (s pre : List Char), s.length ≤ n →
    (v = w ∨ reSubCore qual v 0 pre s = s) →
    reSubCore qual v 0 pre (reSubCore qual w 0 pre s) = reSubCore qual w 0 pre s := by
  intro n
  induction n with
  | zero =>
    intro s pre hle _
    have hs : s = [] := List.eq_nil_of_length_eq_zero (by omega)
    subst hs
    rw [reSubCore_nil, reSubCore_nil]
  | succ n ih =>
    intro s pre hle hprecond
    rcases s with _ | ⟨c, cs⟩
    · rw [reSubCore_nil, reSubCore_nil]
    by_cases hmw : matchesAt qual w pre (c :: cs) = true
    · -- the pass matches w at this position and emits `qual ++ "." ++ w`
      obtain ⟨b, hb⟩ := ((matchesAt_iff qual w pre (c :: cs)).mp hmw).1
      rw [← hb] at hprecond hmw hle ⊢
      rw [reSubCore_match qual w hw b pre hmw]
      refine reSubCore_walk_insert qual v w hv hvw hq hqne hsuf hw hww pre _ ?_
      have hlb : b.length ≤ n := by
        have hwl : 0 < w.length := List.length_pos.mpr hw
        simp only [List.length_append] at hle
        omega
      have hOB : reSubCore qual v 0 (w.reverse ++ pre)
          (reSubCore qual w 0 (w.reverse ++ pre) b) =
          reSubCore qual w 0 (w.reverse ++ pre) b := by
        refine ih b (w.reverse ++ pre) hlb ?_
        rcases hprecond with h | h
        · exact Or.inl h
        · exact Or.inr (reSubCore_clean_tail qual v hv w pre b h)
      have hhead : (w.reverse ++ ('.' :: (qual.reverse ++ pre))).head? =
          (w.reverse ++ pre).head? := by
        obtain ⟨x, xs, hx⟩ : ∃ x xs, w.reverse = x :: xs := by
          rcases hw2 : w.reverse with _ | ⟨x, xs⟩
          · exact absurd (List.reverse_eq_nil_iff.mp hw2) hw
          · exact ⟨x, xs, rfl⟩
        rw [hx]
        rfl
      rw [reSubCore_pre_congr qual v _ 0 _ _ hhead, hOB]
    · -- no w-match here: the character is copied unchanged
      rw [reSubCore_zero_cons qual w pre c cs, if_neg hmw]
      have htail : reSubCore qual v 0 (c :: pre)
          (reSubCore qual w 0 (c :: pre) cs) =
          reSubCore qual w 0 (c :: pre) cs := by
        refine ih cs (c :: pre) (by simp only [List.length_cons] at hle; omega) ?_
        rcases hprecond with h | h
        · exact Or.inl h
        · exact Or.inr ((reSubCore_clean_cons qual v hv pre c cs).mp h).2
      have hvm : matchesAt qual v pre (c :: cs) = false := by
        rcases hprecond with h | h
        · rw [h]
          simpa using hmw
        · exact ((reSubCore_clean_cons qual v hv pre c cs).mp h).1
      have hhm : matchesAt qual v pre
          (c :: reSubCore qual w 0 (c :: pre) cs) = false := by
        rcases reSubCore_fmd qual w hw cs (c :: pre) with hid | ⟨a, b2, hab, hout⟩
        · rw [hid]
          exact hvm
        · rw [hout]
          refine matchesAt_insert_invariant qual v w hvw hq hqne hsuf
            c pre a b2 _ ?_
          rw [← hab]
          exact hvm
      exact (reSubCore_clean_cons qual v hv pre c
        (reSubCore qual w 0 (c :: pre) cs)).mpr ⟨hhm, htail⟩

/-! ### Lemmas: idempotence of the per-variable substitution loop -/

theorem fold_preserves_clean (qual : List Char)
    (hq : ∀ x ∈ qual, wordChar x = true) (hqne : qual ≠ []) :
    ∀ (vs : List (List Char)) (s v0 : List Char),
    (∀ u ∈ vs, u ≠ [] ∧ ∀ x ∈ u, wordChar x = true) →
    v0 ≠ [] → (∀ x ∈ v0, wordChar x = true) → ¬ List.IsSuffix qual v0 →
    reSubCore qual v0 0 [] s = s →
    reSubCore qual v0 0 [] (vs.foldl (fun c u => reSubVar qual u c) s) =
      vs.foldl (fun c u => reSubVar qual u c) s
  | [], s, v0, _, _, _, _, hclean => by simpa using hclean
  | u :: vs, s, v0, hvs, hv0, hv0w, hsuf, hclean => by
    rw [List.foldl_cons]
    obtain ⟨hu1, hu2⟩ := hvs u (List.mem_cons_self u vs)
    refine fold_preserves_clean qual hq hqne vs (reSubVar qual u s) v0
      (fun x hx => hvs x (List.mem_cons_of_mem u hx)) hv0 hv0w hsuf ?_
    exact reSubCore_clean_after qual v0 u hv0 hv0w hq hqne hsuf hu1 hu2
      s.length s [] (le_refl _) (Or.inr hclean)

theorem fold_clean_all (qual : List Char)
    (hq : ∀ x ∈ qual, wordChar x = true) (hqne : qual ≠ []) :
    ∀ (vs : List (List Char)) (s : List Char),
    (∀ u ∈ vs, u ≠ [] ∧ (∀ x ∈ u, wordChar x = true) ∧
      ¬ List.IsSuffix qual u) →
    ∀ v0 ∈ vs,
    reSubCore qual v0 0 [] (vs.foldl (fun c u => reSubVar qual u c) s) =
      vs.foldl (fun c u => reSubVar qual u c) s
  | [], _, _, v0, hmem => absurd hmem (List.not_mem_nil v0)
  | u :: vs, s, hvs, v0, hmem => by
    rw [List.foldl_cons]
    obtain ⟨hu1, hu2, hu3⟩ := hvs u (List.mem_cons_self u vs)
    rcases List.mem_cons.mp hmem with rfl | hmem2
    · refine fold_preserves_clean qual hq hqne vs (reSubVar qual v0 s) v0
        (fun x hx => ⟨(hvs x (List.mem_cons_of_mem v0 hx)).1,
          (hvs x (List.mem_cons_of_mem v0 hx)).2.1⟩) hu1 hu2 hu3 ?_
      exact reSubCore_clean_after qual v0 v0 hu1 hu2 hq hqne hu3 hu1 hu2
        s.length s [] (le_refl _) (Or.inl rfl)
    · exact fold_clean_all qual hq hqne vs (reSubVar qual u s)
        (fun x hx => hvs x (List.mem_cons_of_mem u hx)) v0 hmem2

theorem fold_id_of_clean (qual : List Char) :
    ∀ (vs : List (List Char)) (s : List Char),
    (∀ u ∈ vs, reSubCore qual u 0 [] s = s) →
    vs.foldl (fun c u => reSubVar qual u c) s = s
  | [], _, _ => rfl
  | u :: vs, s, h => by
    rw [List.foldl_cons]
    have hu : reSubVar qual u s = s := h u (List.mem_cons_self u vs)
    rw [show reSubVar qual u s = reSubCore qual u 0 [] s from rfl,
      h u (List.mem_cons_self u vs)]
    exact fold_id_of_clean qual vs s (fun x hx => h x (List.mem_cons_of_mem u hx))

theorem substAllVars_idem (s : List Char) :
    substAllVars (substAllVars s) = substAllVars s := by
  have hq : ∀ x ∈ qualChars, wordChar x = true := by decide
  have hqne : qualChars ≠ [] := by decide
  have hvars : ∀ u ∈ movedVars, u ≠ [] ∧ (∀ x ∈ u, wordChar x = true) ∧
      ¬ List.IsSuffix qualChars u := by decide
  unfold substAllVars
  exact fold_id_of_clean qualChars movedVars _
    (fun u hu => fold_clean_all qualChars hq hqne movedVars s hvars u hu)

/-! ### Lemmas: every eligible occurrence is replaced

A whole-word occurrence of `v` that is not preceded by a dot is always
reached by the scan in an aligned state: an earlier match consumes exactly
`v`, whose characters are all word characters, so it can never extend into
the occurrence from the left (it would have to end on one of the
occurrence's word characters, failing the trailing `\b`), and it cannot end
flush against the occurrence either (then the character before the
occurrence would be a word character).  Hence the scan arrives at the
occurrence with the required lookbehind context and replaces it. -/

theorem reSubCore_replaces_here (qual v : List Char) (hv : v ≠ [])
    (pre b : List Char) (hw : headNotWord pre = true)
    (hd : headNotDot pre = true) (hb : headNotWord b = true) :
    reSubCore qual v 0 pre (v ++ b) =
      (qual ++ '.' :: v) ++ reSubCore qual v 0 (v.reverse ++ pre) b := by
  refine reSubCore_match qual v hv b pre ?_
  refine (matchesAt_iff qual v pre (v ++ b)).mpr
    ⟨List.prefix_append v b, hw, hd, ?_⟩
  rw [List.drop_left]
  exact hb

theorem reSubCore_replaces (qual v : List Char) (hv : v ≠ [])
    (hvw : ∀ x ∈ v, wordChar x = true) :
    ∀ (n : Nat) (a pre b : List Char), a.length ≤ n →
    headNotWord (a.reverse ++ pre) = true →
    headNotDot (a.reverse ++ pre) = true →
    headNotWord b = true →
    ∃ a2, reSubCore qual v 0 pre (a ++ (v ++ b)) =
      a2 ++ ((qual ++ '.' :: v) ++
        reSubCore qual v 0 (v.reverse ++ (a.reverse ++ pre)) b) := by
  intro n
  induction n with
  | zero =>
    intro a pre b hle hw hd hb
    have ha : a = [] := List.eq_nil_of_length_eq_zero (by omega)
    subst ha
    simp only [List.reverse_nil, List.nil_append] at hw hd ⊢
    exact ⟨[], by rw [reSubCore_replaces_here qual v hv pre b hw hd hb]; simp⟩
  | succ m ih =>
    intro a pre b hle hw hd hb
    rcases a with _ | ⟨c, a2⟩
    · simp only [List.reverse_nil, List.nil_append] at hw hd ⊢
      exact ⟨[], by rw [reSubCore_replaces_here qual v hv pre b hw hd hb]; simp⟩
    rw [List.cons_append]
    by_cases hm : matchesAt qual v pre (c :: (a2 ++ (v ++ b))) = true
    · -- an earlier match fires here: it must lie strictly inside `a`
      have hpre2 : v <+: (c :: (a2 ++ (v ++ b))) :=
        ((matchesAt_iff qual v pre _).mp hm).1
      rcases Nat.lt_trichotomy v.length (c :: a2).length with hlt | heq | hgt
      · -- the match is a proper prefix of `a`: recurse on the rest of `a`
        have hpre3 : v <+: ((c :: a2) ++ (v ++ b)) := by
          rw [show (c :: a2) ++ (v ++ b) = c :: (a2 ++ (v ++ b)) from by simp]
          exact hpre2
        have hvca : v <+: (c :: a2) :=
          List.prefix_of_prefix_length_le hpre3 (List.prefix_append _ _)
            (le_of_lt hlt)
        obtain ⟨rest2, hrest⟩ := hvca
        have hrlen : v.length + rest2.length = a2.length + 1 := by
          simpa using congrArg List.length hrest
        have hv1 : 0 < v.length := List.length_pos.mpr hv
        have hsh2 : c :: (a2 ++ (v ++ b)) = v ++ (rest2 ++ (v ++ b)) := by
          calc c :: (a2 ++ (v ++ b)) = (c :: a2) ++ (v ++ b) := by simp
            _ = (v ++ rest2) ++ (v ++ b) := by rw [hrest]
            _ = v ++ (rest2 ++ (v ++ b)) := by rw [List.append_assoc]
        have hm2 : matchesAt qual v pre (v ++ (rest2 ++ (v ++ b))) = true := by
          rw [← hsh2]
          exact hm
        have hout1 : reSubCore qual v 0 pre (c :: (a2 ++ (v ++ b))) =
            (qual ++ '.' :: v) ++
              reSubCore qual v 0 (v.reverse ++ pre) (rest2 ++ (v ++ b)) := by
          rw [hsh2]
          exact reSubCore_match qual v hv _ pre hm2
        have hctx : rest2.reverse ++ (v.reverse ++ pre) =
            (c :: a2).reverse ++ pre := by
          rw [← hrest]
          simp
        obtain ⟨a3, hout2⟩ := ih rest2 (v.reverse ++ pre) b
          (by simp at hle; omega)
          (by rw [hctx]; exact hw)
          (by rw [hctx]; exact hd) hb
        rw [hctx] at hout2
        refine ⟨(qual ++ '.' :: v) ++ a3, ?_⟩
        rw [hout1, hout2]
        simp [List.append_assoc]
      · -- the match would end flush against the occurrence: then the last
        -- character of `a` is a word character, contradicting the boundary
        have hpre3 : v <+: ((c :: a2) ++ (v ++ b)) := by
          rw [show (c :: a2) ++ (v ++ b) = c :: (a2 ++ (v ++ b)) from by simp]
          exact hpre2
        have hvca : v <+: (c :: a2) :=
          List.prefix_of_prefix_length_le hpre3 (List.prefix_append _ _)
            (le_of_eq heq)
        have hveq : v = c :: a2 :=
          List.IsPrefix.eq_of_length_le hvca (by omega)
        obtain ⟨x, xs, hx⟩ : ∃ x xs, v.reverse = x :: xs := by
          rcases hv2 : v.reverse with _ | ⟨x, xs⟩
          · exact absurd (List.reverse_eq_nil_iff.mp hv2) hv
          · exact ⟨x, xs, rfl⟩
        have hxw : wordChar x = true :=
          hvw x (List.mem_reverse.mp (hx ▸ List.mem_cons_self x xs))
        rw [← hveq, hx, List.cons_append] at hw
        simp [headNotWord, hxw] at hw
      · -- the match would straddle into the occurrence: it would end on a
        -- word character of the occurrence, failing the trailing boundary
        exfalso
        have hafter := ((matchesAt_iff qual v pre _).mp hm).2.2.2
        have hsh : c :: (a2 ++ (v ++ b)) = (c :: a2) ++ (v ++ b) := by simp
        have hk1 : (c :: a2).length ≤ v.length := le_of_lt hgt
        have hk2 : v.length - (c :: a2).length < v.length := by
          simp
          omega
        have hdropeq : (c :: (a2 ++ (v ++ b))).drop v.length =
            (v ++ b).drop (v.length - (c :: a2).length) := by
          have h5 : (c :: (a2 ++ (v ++ b))).drop v.length =
              ((c :: a2) ++ (v ++ b)).drop
                ((c :: a2).length + (v.length - (c :: a2).length)) := by
            rw [hsh]
            congr 1
            omega
          rw [h5, ← List.drop_drop, List.drop_left]
        have hdropeq2 : (v ++ b).drop (v.length - (c :: a2).length) =
            v.drop (v.length - (c :: a2).length) ++ b :=
          List.drop_append_of_le_length (le_of_lt hk2)
        have hne2 : v.drop (v.length - (c :: a2).length) ≠ [] := by
          intro h0
          have := congrArg List.length h0
          simp at this
          omega
        obtain ⟨d, ds, hds⟩ : ∃ d ds,
            v.drop (v.length - (c :: a2).length) = d :: ds := by
          rcases hvd : v.drop (v.length - (c :: a2).length) with _ | ⟨d, ds⟩
          · exact absurd hvd hne2
          · exact ⟨d, ds, rfl⟩
        have hdmem : d ∈ v :=
          (List.drop_suffix _ v).subset (hds ▸ List.mem_cons_self d ds)
        rw [hdropeq, hdropeq2, hds, List.cons_append] at hafter
        simp [headNotWord, hvw d hdmem] at hafter
    · -- no match at this position: copy the character and recurse
      rw [reSubCore_zero_cons, if_neg hm]
      have hctx : a2.reverse ++ (c :: pre) = (c :: a2).reverse ++ pre := by
        simp
      obtain ⟨a3, hout⟩ := ih a2 (c :: pre) b
        (by simp at hle; omega)
        (by rw [hctx]; exact hw) (by rw [hctx]; exact hd) hb
      rw [hctx] at hout
      exact ⟨c :: a3, by rw [hout]; simp⟩

/-! ### Auxiliary: member bounds of a well-formed span list -/

theorem spansOkDesc_bounds : ∀ {spans : List (Nat × Nat)} {L : Nat},
    spansOkDesc spans L = true → ∀ p ∈ spans, p.1 ≤ p.2 ∧ p.2 ≤ L
  | [], _, _, p, hp => absurd hp (List.not_mem_nil p)
  | q :: rest, L, h, p, hp => by
    rcases spansOkDesc_cons.mp h with ⟨h1, h2, _, h4⟩
    rcases List.mem_cons.mp hp with rfl | hp2
    · exact ⟨h1, h2⟩
    · exact spansOkDesc_bounds h4 p hp2

/-! ### The claims -/

/-- C1: for every document of length `L` and every set of pairwise
non-overlapping spans within bounds, applying the removal loop
(`del output_lines[start:end]` for each span) in descending-by-start order
yields a document of length `L` minus the sum of the span sizes, equal to
the subsequence of exactly those lines whose index is covered by no span —
so every uncovered line appears with its content unaltered and in its
original relative order. -/
theorem claim_C1 {α : Type} (spans : List (Nat × Nat)) (doc : List α)
    (h : spansOkDesc spans doc.length = true) :
    (exciseAll spans doc).length = doc.length - spanSizeSum spans ∧
    exciseAll spans doc = keepLinesFrom spans 0 doc :=
  ⟨exciseAll_length spans doc h, exciseAll_eq_keep spans doc h⟩

/-- Witness for C1: the spec's own example spans `[2,5)` and `[10,14)` on a
20-line document. -/
theorem claim_C1_witness :
    spansOkDesc [(10,14),(2,5)] (List.range 20).length = true ∧
    ((exciseAll [(10,14),(2,5)] (List.range 20)).length =
      (List.range 20).length - spanSizeSum [(10,14),(2,5)] ∧
    exciseAll [(10,14),(2,5)] (List.range 20) =
      keepLinesFrom [(10,14),(2,5)] 0 (List.range 20)) :=
  ⟨by decide, claim_C1 [(10,14),(2,5)] (List.range 20) (by decide)⟩

/-- Counterexample for C2: the full rewrite pass of `update_refs.py` is not
idempotent.  The literal replacement `Tool:: -> CanvasPanel::Tool::` runs
unguarded, so a second application of the pass re-qualifies the `Tool::`
inside `CanvasPanel::Tool::`, producing `CanvasPanel::CanvasPanel::Tool::`. -/
theorem claim_C2_counterexample :
    updateRefs (updateRefs ("Tool::".toList)) ≠ updateRefs ("Tool::".toList) := by
  decide

/-- C2 (amended): the per-variable qualified substitution pass of
`update_refs.py` is idempotent: applying the per-variable substitutions
twice yields the same document as applying them once, for every document.
(The preceding literal `Tool::` scope substitution is what breaks
idempotence of the full pass.) -/
theorem claim_C2_amended (doc : List Char) :
    substAllVars (substAllVars doc) = substAllVars doc :=
  substAllVars_idem doc

/-- C3: if, within the scan window, line `i + m` is the first line at which
an opening brace has been observed and the running balance (incremented by
each line's `{` count and decremented by its `}` count) is exactly 0, the
boundary scan returns `i + m + 1` as the exclusive end; if the window is
exhausted without this condition, no span is produced. -/
theorem claim_C3 :
    (∀ (lines : List (List Char)) (i window m : Nat),
      i + m < min (i + window) lines.length →
      acceptAt lines i m →
      (∀ n, n < m → ¬ acceptAt lines i n) →
      scanEnd lines i window = some (i + m + 1)) ∧
    (∀ (lines : List (List Char)) (i window : Nat),
      (∀ n, i + n < min (i + window) lines.length → ¬ acceptAt lines i n) →
      scanEnd lines i window = none) :=
  ⟨fun lines i window m h1 h2 h3 => scanEnd_some lines i window m h1 h2 h3,
   fun lines i window h => scanEnd_none lines i window h⟩

/-- Witness for C3: the spec's five-line example block scans to `[0, 5)`,
and a document with no opening brace exhausts the window with no span. -/
theorem claim_C3_witness :
    scanEnd ["sig() \x7b".toList, "  if (x) \x7b".toList, "    y();".toList,
      "  \x7d".toList, "\x7d".toList] 0 100 = some 5 ∧
    scanEnd ["\x7d".toList] 0 5 = none := by
  constructor
  · have h := claim_C3.1
      ["sig() \x7b".toList, "  if (x) \x7b".toList, "    y();".toList,
        "  \x7d".toList, "\x7d".toList] 0 100 4
      (by decide) (by decide)
      (fun n hn => by interval_cases n <;> decide)
    simpa using h
  · refine claim_C3.2 ["\x7d".toList] 0 5 (fun n hn => ?_)
    have hn0 : n = 0 := by
      simp at hn
      omega
    subst hn0
    decide

/-- Counterexample for C4: the code performs no overlap validation.  The
spans `(1,4)` and `(0,2)` overlap under the spec's own overlap test, the
spec-side `build` contract rejects them, yet the code's removal pipeline
silently sorts and applies them, producing a document. -/
theorem claim_C4_counterexample :
    overlapSpec (1,4) (0,2) = true ∧
    specBuild [(1,4),(0,2)] = none ∧
    exciseAll (sortSpansDesc [(1,4),(0,2)]) ['a','b','c','d','e'] = [] := by
  decide

/-- C4 (amended): no overlap validation is performed and no `OverlapError`
exists in the code: the removal loop accepts any span list, overlapping or
not, and silently applies it.  The result is always a subsequence of the
document (spans are never merged into new content), but for overlapping
spans it can differ from removing the union of the spans — here the
overlapping pair deletes the whole document while the union of the spans
covers only lines 0-3. -/
theorem claim_C4_amended :
    (∀ (spans : List (Nat × Nat)) (doc : List Char),
      List.Sublist (exciseAll spans doc) doc) ∧
    (overlapSpec (1,4) (0,2) = true ∧
      exciseAll (sortSpansDesc [(1,4),(0,2)]) ['a','b','c','d','e'] = [] ∧
      keepLinesFrom [(1,4),(0,2)] 0 ['a','b','c','d','e'] = ['e']) :=
  ⟨fun spans doc => exciseAll_sublist spans doc, by decide⟩

/-- Counterexample for C5: a boundary failure does not abort the run.  In
this document the `RenderCanvasPanel` signature (and two others) is absent,
yet the pipeline does not leave the origin document unchanged: it removes
the one found block and produces a different (here empty) document, which
is then written. -/
theorem claim_C5_counterexample :
    findSigIdx sigRender
      ["bool UI::DetectEdgeHover() \x7b".toList, "\x7d".toList] = none ∧
    cleanUi ["bool UI::DetectEdgeHover() \x7b".toList, "\x7d".toList] = [] ∧
    (["bool UI::DetectEdgeHover() \x7b".toList, "\x7d".toList] :
      List (List Char)) ≠ [] := by
  decide

/-- C5 (amended): a target whose boundary is not found is silently skipped:
the run proceeds exactly as if that target were not in the list — every
found block is still removed and the result is still written.  Here: if the
`RenderCanvasPanel` signature occurs on no line, the pipeline equals the
pipeline over the remaining three targets. -/
theorem claim_C5_amended (lines : List (List Char))
    (h : ∀ l ∈ lines, containsSub sigRender l = false) :
    cleanUi lines =
      exciseAll (sortSpansDesc (collectSpans
        [(sigDetect, 100), (sigEye, 100), (sigCursor, 100)] lines)) lines := by
  unfold cleanUi
  have hr : findBlock sigRender 2000 lines = none :=
    findBlock_none_of_absent sigRender 2000 lines h
  simp only [targetsAll, collectSpans_cons, collectSpans_nil, hr,
    Option.toList, List.nil_append, List.append_nil]

/-- Witness for C5 (amended), on the counterexample document. -/
theorem claim_C5_witness :
    (∀ l ∈ (["bool UI::DetectEdgeHover() \x7b".toList, "\x7d".toList] :
      List (List Char)), containsSub sigRender l = false) ∧
    cleanUi ["bool UI::DetectEdgeHover() \x7b".toList, "\x7d".toList] =
      exciseAll (sortSpansDesc (collectSpans
        [(sigDetect, 100), (sigEye, 100), (sigCursor, 100)]
        ["bool UI::DetectEdgeHover() \x7b".toList, "\x7d".toList]))
        ["bool UI::DetectEdgeHover() \x7b".toList, "\x7d".toList] :=
  ⟨by decide, claim_C5_amended _ (by decide)⟩

/-- C6: extraction is exact — the extracted lines are precisely the lines
`[start, end)`, unmodified and in original order (the document decomposes as
prefix ++ extracted ++ suffix, and the extract has length `end - start`) —
and excision is inverted by extraction: re-inserting each extracted span's
lines at its excision point (in ascending span order, the reverse of the
descending removal order) reconstructs the original document exactly. -/
theorem claim_C6 {α : Type} (doc : List α) (spans : List (Nat × Nat))
    (h : spansOkDesc spans doc.length = true) :
    (∀ p ∈ spans, doc.take p.1 ++ extractSpan doc p ++ doc.drop p.2 = doc ∧
      (extractSpan doc p).length = p.2 - p.1) ∧
    reinsertAll doc spans.reverse (exciseAll spans doc) = doc := by
  constructor
  · intro p hp
    obtain ⟨h1, h2⟩ := spansOkDesc_bounds h p hp
    constructor
    · show doc.take p.1 ++ (doc.take p.2).drop p.1 ++ doc.drop p.2 = doc
      have hsplit2 : (doc.take p.2).take p.1 = doc.take p.1 := by
        rw [List.take_take, Nat.min_eq_left h1]
      rw [← hsplit2, List.take_append_drop, List.take_append_drop]
    · show ((doc.take p.2).drop p.1).length = p.2 - p.1
      simp [List.length_drop, List.length_take, Nat.min_eq_left h2]
  · have h2 := reinsert_excise spans doc [] (by simpa using h)
    simpa using h2

/-- Witness for C6, on the spec's example spans over a 20-line document. -/
theorem claim_C6_witness :
    spansOkDesc [(10,14),(2,5)] (List.range 20).length = true ∧
    ((∀ p ∈ ([(10,14),(2,5)] : List (Nat × Nat)),
      (List.range 20).take p.1 ++ extractSpan (List.range 20) p ++
        (List.range 20).drop p.2 = List.range 20 ∧
      (extractSpan (List.range 20) p).length = p.2 - p.1) ∧
    reinsertAll (List.range 20) ([(10,14),(2,5)] : List (Nat × Nat)).reverse
      (exciseAll [(10,14),(2,5)] (List.range 20)) = List.range 20) :=
  ⟨by decide, claim_C6 (List.range 20) [(10,14),(2,5)] (by decide)⟩

/-- Counterexample for C7: the claim says every whole-word occurrence not
already preceded by the relocated-owner qualifier `m_canvasPanel.` is
replaced.  But `currentTool` in `other.currentTool` is a whole-word
occurrence not preceded by `m_canvasPanel.`, and the rewrite leaves it
unchanged (the `(?<!\.)` lookbehind excludes every dot-preceded occurrence,
not only qualifier-preceded ones), instead of producing
`other.m_canvasPanel.currentTool`. -/
theorem claim_C7_counterexample :
    updateRefs ("other.currentTool".toList) = "other.currentTool".toList ∧
    "other.currentTool".toList ≠ "other.m_canvasPanel.currentTool".toList := by
  decide

/-- C7 (amended): for every symbol name of the rename table, the rewrite
replaces every whole-word occurrence that is not immediately preceded by a
dot (in particular, not already qualified) with
`qualifier + "." + symbolName`: for any document decomposed as
`a ++ v ++ b` where the character before the occurrence (if any) is neither
a word character nor a dot and the character after it (if any) is not a word
character, the output emits `m_canvasPanel ++ "." ++ v` in place of the
occurrence and the scan continues right after it.  Concretely
`currentTool = 1;` becomes `m_canvasPanel.currentTool = 1;`; the table
entry `count -> state.count` applied to `count = count + 1;` yields
`state.count = state.count + 1;`, re-applying yields the identical line;
and for every variable a second pass over any document changes nothing
(every replaceable occurrence was already qualified by the first pass). -/
theorem claim_C7_amended :
    (∀ v a b, v ∈ movedVars →
      headNotWord a.reverse = true → headNotDot a.reverse = true →
      headNotWord b = true →
      ∃ a2, reSubVar qualChars v (a ++ (v ++ b)) =
        a2 ++ ((qualChars ++ '.' :: v) ++
          reSubCore qualChars v 0 (v.reverse ++ a.reverse) b)) ∧
    (∀ v doc, v ∈ movedVars →
      reSubVar qualChars v (reSubVar qualChars v doc) = reSubVar qualChars v doc) ∧
    reSubVar qualChars ("currentTool".toList) ("currentTool = 1;".toList) =
      "m_canvasPanel.currentTool = 1;".toList ∧
    reSubVar ("state".toList) ("count".toList) ("count = count + 1;".toList) =
      "state.count = state.count + 1;".toList ∧
    reSubVar ("state".toList) ("count".toList)
      ("state.count = state.count + 1;".toList) =
      "state.count = state.count + 1;".toList := by
  have hq : ∀ x ∈ qualChars, wordChar x = true := by decide
  have hqne : qualChars ≠ [] := by decide
  have hall : ∀ u ∈ movedVars, u ≠ [] ∧ (∀ x ∈ u, wordChar x = true) ∧
      ¬ List.IsSuffix qualChars u := by decide
  refine ⟨?_, ?_, by decide, by decide, by decide⟩
  · intro v a b hv hwa hda hwb
    obtain ⟨h1, h2, _⟩ := hall v hv
    obtain ⟨a2, hout⟩ := reSubCore_replaces qualChars v h1 h2 a.length a [] b
      (le_refl _) (by simpa using hwa) (by simpa using hda) hwb
    refine ⟨a2, ?_⟩
    unfold reSubVar
    rw [hout]
    simp
  · intro v doc hv
    obtain ⟨h1, h2, h3⟩ := hall v hv
    exact reSubCore_clean_after qualChars v v h1 h2 hq hqne h3 h1 h2
      doc.length doc [] (le_refl _) (Or.inl rfl)

/-- Witness for C7 (amended): the bare occurrence of `currentTool` in
`if (currentTool > 0)` is replaced with the `m_canvasPanel.` qualifier, and
the pass is idempotent on `currentTool = 1;`. -/
theorem claim_C7_witness :
    (("currentTool".toList ∈ movedVars) ∧
      headNotWord ("if (".toList).reverse = true ∧
      headNotDot ("if (".toList).reverse = true ∧
      headNotWord (" > 0)".toList) = true) ∧
    (∃ a2, reSubVar qualChars ("currentTool".toList)
        ("if (".toList ++ ("currentTool".toList ++ " > 0)".toList)) =
      a2 ++ ((qualChars ++ '.' :: "currentTool".toList) ++
        reSubCore qualChars ("currentTool".toList) 0
          ("currentTool".toList.reverse ++ ("if (".toList).reverse)
          (" > 0)".toList))) ∧
    reSubVar qualChars ("currentTool".toList)
      (reSubVar qualChars ("currentTool".toList) ("currentTool = 1;".toList)) =
      reSubVar qualChars ("currentTool".toList) ("currentTool = 1;".toList) :=
  ⟨⟨by decide, by decide, by decide, by decide⟩,
   claim_C7_amended.1 ("currentTool".toList) ("if (".toList) (" > 0)".toList)
     (by decide) (by decide) (by decide) (by decide),
   claim_C7_amended.2.1 ("currentTool".toList) ("currentTool = 1;".toList)
     (by decide)⟩

/-- C8: the block adapter applies each rule in sequence to every line (the
loop is a map, so no line is dropped); a line whose adapted text contains
the defer marker `ShowToast(` is replaced by the annotated
`// TODO: Re-enable toast: ` placeholder (left-stripped) instead of its
normal substitution result, a marker-free line is exactly the result of the
literal replacements, and a literal replacement rule fires on every line in
which its substring is present (the line is actually changed). -/
theorem claim_C8 :
    (∀ ls : List (List Char), renderAdapt ls = ls.map adaptRenderLine ∧
      (renderAdapt ls).length = ls.length) ∧
    (∀ l, containsSub toastMarker (applyReplaces l) = true →
      adaptRenderLine l = todoMark ++ pyLstrip (applyReplaces l)) ∧
    (∀ l, containsSub toastMarker (applyReplaces l) = false →
      adaptRenderLine l = applyReplaces l) ∧
    (∀ l p r, (p, r) ∈ replacePairs → containsSub p l = true →
      pyReplace p r l ≠ l) := by
  refine ⟨fun ls => ⟨rfl, by simp [renderAdapt]⟩,
    fun l h => ?_, fun l h => ?_, fun l p r hm ho => ?_⟩
  · unfold adaptRenderLine
    rw [if_pos h]
  · unfold adaptRenderLine
    rw [if_neg (by simp [h])]
  · have hm2 : (p = "void UI::RenderCanvasPanel".toList ∧
        r = "void CanvasPanel::Render".toList) ∨
        (p = "showPropertiesPanel = !showPropertiesPanel".toList ∧
          r = "*showPropertiesPanel = !(*showPropertiesPanel)".toList) ∨
        (p = "m_layoutInitialized = false".toList ∧
          r = "*layoutInitialized = false".toList) := by
      simpa [replacePairs, Prod.ext_iff] using hm
    rcases hm2 with ⟨rfl, rfl⟩ | ⟨rfl, rfl⟩ | ⟨rfl, rfl⟩ <;>
      exact pyReplace_changes _ _ (by decide) (by decide) l ho

/-- Witness for C8: a `ShowToast(` line is deferred with the annotation, and
the third replacement rule fires on a line containing its pattern. -/
theorem claim_C8_witness :
    (containsSub toastMarker (applyReplaces ("    ShowToast(msg);".toList)) = true ∧
      adaptRenderLine ("    ShowToast(msg);".toList) =
        todoMark ++ pyLstrip (applyReplaces ("    ShowToast(msg);".toList))) ∧
    (("m_layoutInitialized = false".toList,
        "*layoutInitialized = false".toList) ∈ replacePairs ∧
      containsSub ("m_layoutInitialized = false".toList)
        ("  m_layoutInitialized = false;".toList) = true ∧
      pyReplace ("m_layoutInitialized = false".toList)
        ("*layoutInitialized = false".toList)
        ("  m_layoutInitialized = false;".toList) ≠
        "  m_layoutInitialized = false;".toList) := by
  refine ⟨⟨by decide, claim_C8.2.1 _ (by decide)⟩,
    ⟨by decide, by decide, claim_C8.2.2.2 _ _ _ (by decide) (by decide)⟩⟩

/-- C9: for every symbol of the rename table, a whole-word occurrence that
is immediately preceded by a dot is left unchanged by the substitution
pass, regardless of what precedes the dot (the scan emits the occurrence
verbatim and continues after it); in particular `other.currentTool`, which
is qualified by another object, passes through the whole rewrite
unchanged. -/
theorem claim_C9 :
    (∀ v pre rest, v ∈ movedVars →
      reSubCore qualChars v 0 ('.' :: pre) (v ++ rest) =
        v ++ reSubCore qualChars v 0 (v.reverse ++ ('.' :: pre)) rest) ∧
    updateRefs ("other.currentTool".toList) = "other.currentTool".toList := by
  refine ⟨fun v pre rest hv => ?_, by decide⟩
  have hall : ∀ u ∈ movedVars, u ≠ [] ∧ ∀ x ∈ u, wordChar x = true := by decide
  obtain ⟨h1, h2⟩ := hall v hv
  exact reSubCore_dot_block qualChars v h1 h2 ('.' :: pre) rest (by simp [headNotDot])

/-- Witness for C9, at `currentTool` preceded by `other.`. -/
theorem claim_C9_witness :
    ("currentTool".toList ∈ movedVars) ∧
    reSubCore qualChars ("currentTool".toList) 0 ('.' :: "rehto".toList)
      ("currentTool".toList ++ " = 1;".toList) =
      "currentTool".toList ++ reSubCore qualChars ("currentTool".toList) 0
        ("currentTool".toList.reverse ++ ('.' :: "rehto".toList))
        (" = 1;".toList) :=
  ⟨by decide, claim_C9.1 ("currentTool".toList) ("rehto".toList)
    (" = 1;".toList) (by decide)⟩

/-- Counterexample for C10: the claim says every later occurrence's block is
left in the output untouched.  In this document the signature occurs on
lines 0 and 1; line 1 even starts its own well-formed balanced block
`[1, 2)`.  But the first match's block is `[0, 3)`, which covers line 1, so
the later occurrence's block is removed with it: the output is empty. -/
theorem claim_C10_counterexample :
    containsSub sigDetect
      ((["bool UI::DetectEdgeHover( \x7b".toList,
        "bool UI::DetectEdgeHover( \x7b \x7d".toList,
        "\x7d".toList] : List (List Char)).getD 1 []) = true ∧
    scanEnd ["bool UI::DetectEdgeHover( \x7b".toList,
      "bool UI::DetectEdgeHover( \x7b \x7d".toList,
      "\x7d".toList] 1 100 = some 2 ∧
    findSigIdx sigDetect ["bool UI::DetectEdgeHover( \x7b".toList,
      "bool UI::DetectEdgeHover( \x7b \x7d".toList,
      "\x7d".toList] = some 0 ∧
    cleanUi ["bool UI::DetectEdgeHover( \x7b".toList,
      "bool UI::DetectEdgeHover( \x7b \x7d".toList,
      "\x7d".toList] = [] := by
  decide

/-- C10 (amended): for each target signature, only the block beginning at
the earliest line containing the signature is located (every earlier index
contains no occurrence), and — provided the collected spans are pairwise
disjoint — the output document is exactly the lines not covered by any
collected span, so any later occurrence lying outside every removed span
appears in the output untouched. -/
theorem claim_C10_amended :
    (∀ (sig : List Char) (w : Nat) (lines : List (List Char)) (i e : Nat),
      findBlock sig w lines = some (i, e) →
      containsSub sig (lines.getD i []) = true ∧
      ∀ k, k < i → containsSub sig (lines.getD k []) = false) ∧
    (∀ (lines : List (List Char)),
      spansOkDesc (sortSpansDesc (collectSpans targetsAll lines))
        lines.length = true →
      cleanUi lines =
        keepLinesFrom (sortSpansDesc (collectSpans targetsAll lines)) 0 lines) := by
  constructor
  · intro sig w lines i e h
    unfold findBlock at h
    rcases hs : findSigIdx sig lines with _ | i2
    · rw [hs] at h
      exact absurd h (by simp)
    · rw [hs] at h
      have h2 : (match scanEnd lines i2 w with
        | none => none
        | some e => some (i2, e)) = some (i, e) := h
      rcases he : scanEnd lines i2 w with _ | e2
      · rw [he] at h2
        exact absurd h2 (by simp)
      · rw [he] at h2
        have hie : i2 = i ∧ e2 = e := by simpa [Prod.ext_iff] using h2
        obtain ⟨rfl, rfl⟩ := hie
        obtain ⟨_, h3, h4⟩ := findSigIdx_first sig lines i2 hs
        exact ⟨h3, h4⟩
  · intro lines h
    unfold cleanUi
    exact exciseAll_eq_keep _ lines h

/-- Witness for C10 (amended), on a document with one single-line block
followed by an uncovered line that survives. -/
theorem claim_C10_witness :
    (findBlock sigDetect 100
      ["bool UI::DetectEdgeHover( \x7b \x7d".toList, "int x;".toList] =
      some (0, 1) ∧
    (containsSub sigDetect
      ((["bool UI::DetectEdgeHover( \x7b \x7d".toList, "int x;".toList] :
        List (List Char)).getD 0 []) = true ∧
      ∀ k, k < 0 → containsSub sigDetect
        ((["bool UI::DetectEdgeHover( \x7b \x7d".toList, "int x;".toList] :
          List (List Char)).getD k []) = false)) ∧
    (spansOkDesc (sortSpansDesc (collectSpans targetsAll
        ["bool UI::DetectEdgeHover( \x7b \x7d".toList, "int x;".toList]))
        (["bool UI::DetectEdgeHover( \x7b \x7d".toList,
          "int x;".toList] : List (List Char)).length = true ∧
      cleanUi ["bool UI::DetectEdgeHover( \x7b \x7d".toList, "int x;".toList] =
        keepLinesFrom (sortSpansDesc (collectSpans targetsAll
          ["bool UI::DetectEdgeHover( \x7b \x7d".toList, "int x;".toList])) 0
          ["bool UI::DetectEdgeHover( \x7b \x7d".toList, "int x;".toList]) := by
  refine ⟨⟨by decide, claim_C10_amended.1 sigDetect 100 _ 0 1 (by decide)⟩,
    ⟨by decide, claim_C10_amended.2 _ (by decide)⟩⟩

end Cartograph
